import Mathlib

/-!
Shallow embedding of the response-processing core of the smolbot repository
(message queue admission and worker, model-fallback ladder with retry/backoff,
and the emoji popularity cache with its text rewriter), together with theorems
settling the specification claims about it.

Sources embedded (TypeScript):
- src/src/services/messageQueueService.ts (first revision: queueMessage,
  processChannelQueue; second revision: the EmojiService with the top-K
  updateAvailableEmojis and the placeholder-based processEmojiText)
- src/src/services/emojiService.ts (revision 2 at lines 423-915 and revision 3
  at lines 915-1433: trackEmojiUsage, updateAvailableEmojis, processEmojiText)
- src/unnamed/part_005 first chunk (utils.ts: handleModelFallback,
  retryWithBackoff)
- src/src/config/config.ts (MODEL_CONFIG, CONFIG.QUEUE)

JavaScript Maps are modeled as association lists preserving insertion order
(`alGet`/`alSet`), strings as `List Char` where character-level scanning is
needed, and the JS regular-expression `replace`/`match` operations used by the
source are modeled by explicit deterministic scanners (each regex used by the
source is backtracking-free, so a single left-to-right pass is an exact model).
Asynchronous persistence (`saveRankings`) and logging have no effect on the
in-memory state and are noted where they occur.
-/

/-! ## Generic helpers: association lists (JS Map) and stable insertion sort -/

def alGet {α : Type} : List (String × α) → String → Option α
  | [], _ => none
  | (k, v) :: rest, key => if k = key then some v else alGet rest key

def alSet {α : Type} : List (String × α) → String → α → List (String × α)
  | [], key, val => [(key, val)]
  | (k, v) :: rest, key, val =>
      if k = key then (k, val) :: rest else (k, v) :: alSet rest key val

def alValues {α : Type} (m : List (String × α)) : List α := m.map Prod.snd

/-- Stable insertion used to model JS `Array.prototype.sort` with a comparator:
`before x y = true` means `x` is placed in front of `y`.  Inserting `x`
in front of the first `y` with `before x y` keeps the sort stable when
`before` is chosen as the comparator-induced non-strict (for a descending
sort) or strict (for an ascending sort) order. -/
def insertBy {α : Type} (before : α → α → Bool) (x : α) : List α → List α
  | [] => [x]
  | y :: ys => if before x y then x :: y :: ys else y :: insertBy before x ys

def sortBy {α : Type} (before : α → α → Bool) : List α → List α
  | [] => []
  | x :: xs => insertBy before x (sortBy before xs)

theorem insertBy_perm {α : Type} (before : α → α → Bool) (x : α) (l : List α) :
    (insertBy before x l).Perm (x :: l) := by
  induction l with
  | nil => exact List.Perm.refl _
  | cons y ys ih =>
    simp only [insertBy]
    by_cases h : before x y = true
    · simp [h]
    · simp only [h, if_false, Bool.false_eq_true]
      exact (List.Perm.cons y ih).trans (List.Perm.swap x y ys)

theorem sortBy_perm {α : Type} (before : α → α → Bool) (l : List α) :
    (sortBy before l).Perm l := by
  induction l with
  | nil => exact List.Perm.refl _
  | cons x xs ih =>
    exact (insertBy_perm before x (sortBy before xs)).trans (ih.cons x)

theorem insertBy_pairwise {α : Type} (R : α → α → Prop) (before : α → α → Bool)
    (hRtrans : ∀ a b c, R a b → R b c → R a c)
    (hR : ∀ a b, (before a b = true → R a b) ∧ (before a b = false → R b a))
    (x : α) (l : List α) (hl : l.Pairwise R) :
    (insertBy before x l).Pairwise R := by
  induction l with
  | nil => simp [insertBy]
  | cons y ys ih =>
    rcases List.pairwise_cons.mp hl with ⟨hy, hys⟩
    simp only [insertBy]
    by_cases h : before x y = true
    · simp only [h, if_true]
      refine List.pairwise_cons.mpr ⟨?_, hl⟩
      intro b hb
      rcases List.mem_cons.mp hb with hb | hb
      · exact hb ▸ (hR x y).1 h
      · exact hRtrans x y b ((hR x y).1 h) (hy b hb)
    · simp only [h, if_false, Bool.false_eq_true]
      refine List.pairwise_cons.mpr ⟨?_, ih hys⟩
      intro b hb
      have hmem : b ∈ x :: ys := (insertBy_perm before x ys).mem_iff.mp hb
      rcases List.mem_cons.mp hmem with hb' | hb'
      · exact hb' ▸ (hR x y).2 (by simpa using h)
      · exact hy b hb'

theorem sortBy_pairwise {α : Type} (R : α → α → Prop) (before : α → α → Bool)
    (hRtrans : ∀ a b c, R a b → R b c → R a c)
    (hR : ∀ a b, (before a b = true → R a b) ∧ (before a b = false → R b a))
    (l : List α) : (sortBy before l).Pairwise R := by
  induction l with
  | nil => simp [sortBy]
  | cons x xs ih => exact insertBy_pairwise R before hRtrans hR x _ ih

/-! ## Message queue (src/src/services/messageQueueService.ts, first revision)

`CONFIG.QUEUE` from src/src/config/config.ts. -/

def maxQueueSize : Nat := 5

def processingDelay : Nat := 2500

/-- The fields of a Discord message that queueMessage consults. -/
structure DMessage where
  id : String
  channelId : String
deriving DecidableEq

structure QueuedMessage where
  message : DMessage
  timestamp : Nat
deriving DecidableEq

structure MessageQueue where
  queue : List QueuedMessage
  isProcessing : Bool
deriving DecidableEq

/-- `getChannelQueue` lazily creates `\x7b queue: [], isProcessing: false \x7d` for an
unseen key; the map of queues is therefore modeled as a total function whose
default is that empty queue. -/
def QueueMap : Type := String → MessageQueue

def getChannelQueue (qs : QueueMap) (channelId : String) : MessageQueue := qs channelId

def setChannelQueue (qs : QueueMap) (channelId : String) (q : MessageQueue) : QueueMap :=
  fun c => if c = channelId then q else qs c

/-- Result of one `queueMessage` call: the returned boolean, whether a worker
run was started (line 70: `if (!channelQueue.isProcessing) void this.processChannelQueue(...)`),
and the updated queue map. -/
structure QueueResult where
  accepted : Bool
  startedWorker : Bool
  queues : QueueMap

/-- queueMessage, messageQueueService.ts lines 36-75.  Logging calls omitted
(no state effect); the source's local `channelQueue` binding is inlined. -/
def queueMessage (qs : QueueMap) (message : DMessage) (now : Nat) : QueueResult :=
  if maxQueueSize ≤ (getChannelQueue qs message.channelId).queue.length then
    { accepted := false, startedWorker := false, queues := qs }
  else
    { accepted := true
    , startedWorker := !(getChannelQueue qs message.channelId).isProcessing
    , queues := setChannelQueue qs message.channelId
        { queue := (getChannelQueue qs message.channelId).queue ++
            [{ message := message, timestamp := now }]
        , isProcessing := (getChannelQueue qs message.channelId).isProcessing } }

/-- Folding a sequence of admissions (message, arrival time) through queueMessage. -/
def admitAll (qs : QueueMap) : List (DMessage × Nat) → QueueMap
  | [] => qs
  | (m, t) :: rest => admitAll (queueMessage qs m t).queues rest

structure ProcErr where
  message : String
deriving DecidableEq

/-- processQueuedMessage, messageQueueService.ts lines 137-199: the whole body
is wrapped in try/catch; on failure control goes to handleProcessingError
(lines 204-215), which only logs.  The call therefore always returns normally,
whatever the outcome of the generation/reply work (modeled by the scripted
`outcome` argument). -/
def processQueuedMessage (outcome : Except ProcErr Unit) : Except ProcErr Unit :=
  match outcome with
  | .ok _ => .ok ()
  | .error _ => .ok ()

structure ChannelQueueSt where
  queue : List QueuedMessage
  isProcessing : Bool
deriving DecidableEq

/-- The while loop of processChannelQueue (lines 96-119): take the head,
invoke processQueuedMessage on it (its outcome scripted by `outcomes`),
shift the head, and continue; the inter-item `processingDelay` sleep has no
state effect.  Were processQueuedMessage ever to throw, the outer catch
(lines 120-124) would exit the loop with the queue unshifted - that branch is
kept although processQueuedMessage never throws.  The snapshots list records
the queue contents at the start of each iteration (while the worker holds the
flag). -/
def workerLoop : List QueuedMessage → List (Except ProcErr Unit) →
    List QueuedMessage × List (List QueuedMessage)
  | [], _ => ([], [])
  | m :: rest, outcomes =>
    match processQueuedMessage (outcomes.headD (.ok ())) with
    | .ok _ =>
      let r := workerLoop rest outcomes.tail
      (r.1, (m :: rest) :: r.2)
    | .error _ => (m :: rest, [m :: rest])

/-- processChannelQueue, messageQueueService.ts lines 80-132: the reentrancy
guard (lines 83-86) returns immediately when the flag is set; otherwise the
flag is set, the loop runs, and the finally block (lines 125-131) clears the
flag.  The second component is the trace of intermediate states observed
while the worker runs. -/
def processChannelQueue (st : ChannelQueueSt) (outcomes : List (Except ProcErr Unit)) :
    ChannelQueueSt × List ChannelQueueSt :=
  if st.isProcessing then (st, [])
  else
    let r := workerLoop st.queue outcomes
    ({ queue := r.1, isProcessing := false },
     r.2.map (fun s => { queue := s, isProcessing := true }))

/-! ## Model ladder and retry (src/src/config/config.ts, src/unnamed/part_005) -/

structure ModelState where
  textModels : List String
  visionModels : List String
  currentTextModel : String
  currentVisionModel : String
deriving DecidableEq

/-- MODEL_CONFIG as initialized in src/src/config/config.ts lines 34-48
(the emojiCache field lives in the emoji state below). -/
def MODEL_CONFIG_init : ModelState :=
  { textModels := ["llama-3.3-70b-versatile", "llama-3.2-3b-preview", "llama-3.1-8b-instant"]
  , visionModels := ["llama-3.2-11b-vision-preview", "llama-3.2-90b-vision-preview",
      "llava-v1.5-7b-4096-preview"]
  , currentTextModel := "llama-3.1-70b-versatile"
  , currentVisionModel := "llama-3.2-11b-vision-preview" }

/-! ## String scanning helpers shared by the utils and emoji embeddings -/

def isDigitCh (c : Char) : Bool := decide ('0' ≤ c) && decide (c ≤ '9')

/-- parseInt on a run of decimal digits. -/
def digitsToNat (l : List Char) : Nat := l.foldl (fun n c => n * 10 + (c.toNat - 48)) 0

/-- JS `String.prototype.includes`: scan every position for the pattern. -/
def strContainsL : List Char → List Char → Bool
  | [], pat => pat.isPrefixOf ([] : List Char)
  | c :: rest, pat => pat.isPrefixOf (c :: rest) || strContainsL rest pat

def strContains (s pat : String) : Bool := strContainsL s.toList pat.toList

/-- First match of /try again in (\d+)m(\d+)/ in the message, as
(minutes digits, second capture digits).  The regex is backtracking-free:
after the fixed literal, each `\d+` group is the maximal digit run at its
position; a position where the literal matches but the groups fail cannot
match, and scanning resumes one character further (exactly the JS engine's
behaviour for this pattern). -/
def extractWaitL : List Char → Option (Nat × Nat)
  | [] => none
  | c :: rest =>
    let s := c :: rest
    let pat := "try again in ".toList
    if pat.isPrefixOf s then
      let after := s.drop pat.length
      let d1 := after.takeWhile isDigitCh
      let r1 := after.dropWhile isDigitCh
      match d1, r1 with
      | _ :: _, 'm' :: r2 =>
        let d2 := r2.takeWhile isDigitCh
        if d2.isEmpty then extractWaitL rest
        else some (digitsToNat d1, digitsToNat d2)
      | _, _ => extractWaitL rest
    else extractWaitL rest

def extractWait (s : String) : Option (Nat × Nat) := extractWaitL s.toList

/-! ## handleModelFallback and retryWithBackoff (src/unnamed/part_005, lines 8-119) -/

structure JsError where
  isErrorInstance : Bool
  message : String
deriving DecidableEq

/-- The rate-limit classifier used at part_005 lines 10-11 and 91-92:
`error instanceof Error && (message.includes("rate limit") || message.includes("429"))`. -/
def isRateLimit (e : JsError) : Bool :=
  e.isErrorInstance && (strContains e.message "rate limit" || strContains e.message "429")

inductive ModelType
  | text
  | vision
deriving DecidableEq

def getModelsFor (st : ModelState) (mt : ModelType) : List String :=
  match mt with
  | .text => st.textModels
  | .vision => st.visionModels

def getCurrentModel (st : ModelState) (mt : ModelType) : String :=
  match mt with
  | .text => st.currentTextModel
  | .vision => st.currentVisionModel

def setCurrentModel (st : ModelState) (mt : ModelType) (m : String) : ModelState :=
  match mt with
  | .text => { st with currentTextModel := m }
  | .vision => { st with currentVisionModel := m }

/-- JS `Array.prototype.findIndex`: first index satisfying the test, else -1. -/
def jsFindIndex (p : String → Bool) : List String → Int
  | [] => -1
  | x :: xs =>
    if p x then 0
    else
      let r := jsFindIndex p xs
      if r < 0 then -1 else r + 1

/-- Lines 26-27 of part_005: `waitTimeMatch ? parseInt(waitTimeMatch[1], 10) : 0`. -/
def jsWaitMinutes (e : JsError) : Nat :=
  match extractWait e.message with
  | some p => p.1
  | none => 0

/-- handleModelFallback, part_005 lines 8-69.  `models[models.length - 1]`
on an empty list is `undefined`, which compares unequal to the (string)
current model, hence the `getLast?`/`none => false` case; in the taken reset
branch the list is nonempty, so `models.headD ""` is `models[0]`. -/
def handleModelFallback (st : ModelState) (e : JsError) (mt : ModelType) :
    Bool × ModelState :=
  if isRateLimit e = false then (false, st)
  else
    let models := getModelsFor st mt
    let current := getCurrentModel st mt
    let onLast :=
      match models.getLast? with
      | some l => decide (current = l)
      | none => false
    if onLast && decide (0 < jsWaitMinutes e) then
      (true, setCurrentModel st mt (models.headD ""))
    else
      let currentIndex := jsFindIndex (fun m => m = current) models
      let nextIndex := currentIndex + 1
      if (models.length : Int) ≤ nextIndex then (false, st)
      else (true, setCurrentModel st mt (models.getD nextIndex.toNat ""))

/-- The retry loop of retryWithBackoff, part_005 lines 74-119, with the
attempt outcomes scripted by `op` (the outcome of the k-th call) and the
awaited sleep durations recorded.  `fuel` is `maxRetries - retries`: when it
reaches 0 the loop either returns the operation's value or re-throws its
error, which in both cases is exactly `op retries`. -/
def retryGo {α : Type} (op : Nat → Except JsError α) :
    Nat → Nat → Nat → Except JsError α × List Nat
  | 0, retries, _ => (op retries, [])
  | fuel + 1, retries, delay =>
    match op retries with
    | .ok v => (.ok v, [])
    | .error e =>
      let d :=
        if isRateLimit e then
          match extractWait e.message with
          | some p => max delay (p.1 * 60000 + 5000)
          | none => delay * 2
        else delay * 2
      let r := retryGo op fuel (retries + 1) d
      (r.1, d :: r.2)

def retryWithBackoff {α : Type} (op : Nat → Except JsError α)
    (maxRetries : Nat) (initialDelay : Nat) : Except JsError α × List Nat :=
  retryGo op maxRetries 0 initialDelay

/-- performResponse, src/src/services/groqService.ts lines 25-142: the network
call outcome is scripted; on failure, if handleModelFallback returns true the
function calls itself immediately with the next scripted outcome (consuming no
retry budget), otherwise it re-throws.  Returns (result, model state, number of
operation calls made).  An exhausted script stands for an attempt that would
have needed one more network call than scripted; theorems only use adequate
scripts. -/
def performResponse (st : ModelState) :
    List (Except JsError String) → Except JsError String × ModelState × Nat
  | [] => (.error { isErrorInstance := true, message := "script exhausted" }, st, 0)
  | o :: rest =>
    match o with
    | .ok v => (.ok v, st, 1)
    | .error e =>
      let fb := handleModelFallback st e ModelType.text
      if fb.1 then
        let r := performResponse fb.2 rest
        (r.1, r.2.1, r.2.2 + 1)
      else (.error e, fb.2, 1)

/-- `retryWithBackoff(performResponse)` as called by generateResponse
(groqService.ts line 145) with the default budget (3 retries, 2.5s initial
delay): attempt k of the retry loop runs performResponse on `scripts[k]`,
threading the model state, and the sleeps between attempts are recorded. -/
def genRetryGo (scripts : List (List (Except JsError String))) (st : ModelState) :
    Nat → Nat → Nat → Except JsError String × ModelState × List Nat
  | 0, retries, _ =>
    let r := performResponse st (scripts.getD retries [])
    (r.1, r.2.1, [])
  | fuel + 1, retries, delay =>
    let r := performResponse st (scripts.getD retries [])
    match r.1 with
    | .ok v => (.ok v, r.2.1, [])
    | .error e =>
      let d :=
        if isRateLimit e then
          match extractWait e.message with
          | some p => max delay (p.1 * 60000 + 5000)
          | none => delay * 2
        else delay * 2
      let rr := genRetryGo scripts r.2.1 fuel (retries + 1) d
      (rr.1, rr.2.1, d :: rr.2.2)

def generateResponseModel (st : ModelState)
    (scripts : List (List (Except JsError String))) :
    Except JsError String × ModelState × List Nat :=
  genRetryGo scripts st 3 0 2500

/-! ## Emoji popularity state (src/src/services/emojiService.ts) -/

structure CachedEmoji where
  id : String
  name : String
  animated : Bool
  guildId : String
deriving DecidableEq

structure GuildEmoji where
  id : String
  name : Option String
  animated : Option Bool
deriving DecidableEq

structure EmojiState where
  emojiRankings : List (String × Nat)
  emojiCache : List (String × CachedEmoji)
  currentGuildId : Option String
  currentGuildEmojis : Option (List GuildEmoji)
  lastUsedEmoji : Option String
deriving DecidableEq

/-- JS truthiness of `emoji.name : string | null`: null and "" are falsy. -/
def jsTruthy : Option String → Bool
  | none => false
  | some s => !decide (s = "")

/-- JS `toLowerCase` (all names in play are ASCII): each character lowered. -/
def lowerS (s : String) : String := String.mk (s.toList.map Char.toLower)

/-- updateAvailableEmojis, emojiService.ts lines 137-155 (and identically at
lines 559-577): merge every guild emoji that is not already cached; no
clearing, no sorting, no size bound. -/
def mergeCacheStep (gid : String) (m : List (String × CachedEmoji)) (e : GuildEmoji) :
    List (String × CachedEmoji) :=
  if jsTruthy e.name then
    if (alGet m (lowerS (e.name.getD ""))).isSome then m
    else alSet m (lowerS (e.name.getD ""))
      { id := e.id, name := e.name.getD "", animated := e.animated.getD false
      , guildId := gid }
  else m

def updateAvailableEmojisMerge (st : EmojiState) : EmojiState :=
  match st.currentGuildId, st.currentGuildEmojis with
  | some gid, some emojis =>
    { st with emojiCache := emojis.foldl (mergeCacheStep gid) st.emojiCache }
  | _, _ => st

/-- trackEmojiUsage, emojiService.ts lines 623-666 (the revision carrying the
isFromBot flag; the revision at lines 1133-1167 has the same logic): no-op for
bot-attributed uses, otherwise increment the ranking, persist asynchronously
(no in-memory effect), and recompute the available-emoji cache when the new
count reaches the lowest ranked cached emoji.  The JS ascending sort with
comparator `rankA - rankB` is modeled by a stable insertion sort; only the
head's rank (the minimum) is consumed. -/
def trackEmojiUsage (st : EmojiState) (emojiName : String) (isFromBot : Bool) : EmojiState :=
  if isFromBot then st
  else
    let currentCount := (alGet st.emojiRankings emojiName).getD 0
    let newCount := currentCount + 1
    let st1 := { st with emojiRankings := alSet st.emojiRankings emojiName newCount }
    let sorted := sortBy
      (fun a b => decide ((alGet st1.emojiRankings (lowerS a.name)).getD 0 <
                          (alGet st1.emojiRankings (lowerS b.name)).getD 0))
      (alValues st1.emojiCache)
    match sorted.head? with
    | some lowestTopEmoji =>
      let lowestRank := (alGet st1.emojiRankings (lowerS lowestTopEmoji.name)).getD 0
      if lowestRank ≤ newCount then updateAvailableEmojisMerge st1 else st1
    | none => st1

theorem alGet_alSet_self {α : Type} (m : List (String × α)) (k : String) (v : α) :
    alGet (alSet m k v) k = some v := by
  induction m with
  | nil => simp [alGet, alSet]
  | cons kv rest ih =>
    obtain ⟨k', v'⟩ := kv
    by_cases h : k' = k
    · simp [alSet, alGet, h]
    · simp [alSet, alGet, h, ih]

theorem alGet_alSet_ne {α : Type} (m : List (String × α)) (k k' : String) (v : α)
    (h : ¬ k = k') : alGet (alSet m k v) k' = alGet m k' := by
  induction m with
  | nil => simp [alGet, alSet, h]
  | cons kv rest ih =>
    obtain ⟨k0, v0⟩ := kv
    by_cases h0 : k0 = k
    · subst h0; simp [alSet, alGet, h]
    · simp only [alSet, if_neg h0]
      by_cases h1 : k0 = k'
      · simp [alGet, h1]
      · simp [alGet, h1, ih]

theorem updateAvailableEmojisMerge_rankings (st : EmojiState) :
    (updateAvailableEmojisMerge st).emojiRankings = st.emojiRankings := by
  unfold updateAvailableEmojisMerge
  cases st.currentGuildId <;> cases st.currentGuildEmojis <;> rfl

theorem trackEmojiUsage_rankings_false (st : EmojiState) (name : String) :
    (trackEmojiUsage st name false).emojiRankings =
      alSet st.emojiRankings name ((alGet st.emojiRankings name).getD 0 + 1) := by
  unfold trackEmojiUsage
  simp only [Bool.false_eq_true, if_false]
  split
  · split
    · rw [updateAvailableEmojisMerge_rankings]
    · rfl
  · rfl

/-- C6: calling trackEmojiUsage (recordUse) with isFromBot (attributedToSelf)
true returns before touching any state, leaving the whole emoji state - in
particular the RankingTable entry for the name and every other entry -
unchanged; a call with the flag false increments exactly that name's count. -/
theorem c6_recordUse_self_noop (st : EmojiState) (name other : String) :
    trackEmojiUsage st name true = st
  ∧ alGet (trackEmojiUsage st name false).emojiRankings name =
      some ((alGet st.emojiRankings name).getD 0 + 1)
  ∧ (¬ other = name →
      alGet (trackEmojiUsage st name false).emojiRankings other =
        alGet st.emojiRankings other) := by
  refine ⟨rfl, ?_, ?_⟩
  · rw [trackEmojiUsage_rankings_false, alGet_alSet_self]
  · intro h
    rw [trackEmojiUsage_rankings_false, alGet_alSet_ne]
    intro hc
    exact h hc.symm

/-! ## Claim C1: queue admission -/

theorem queueMessage_bounded (qs : QueueMap) (m : DMessage) (t : Nat)
    (h : ∀ c, (qs c).queue.length ≤ maxQueueSize) :
    ∀ c, ((queueMessage qs m t).queues c).queue.length ≤ maxQueueSize := by
  intro c
  unfold queueMessage
  by_cases hfull : maxQueueSize ≤ (getChannelQueue qs m.channelId).queue.length
  · rw [if_pos hfull]
    exact h c
  · rw [if_neg hfull]
    show ((setChannelQueue qs m.channelId _) c).queue.length ≤ maxQueueSize
    unfold setChannelQueue
    by_cases hc : c = m.channelId
    · rw [if_pos hc]
      have := Nat.lt_of_not_le hfull
      simp only [List.length_append, List.length_cons, List.length_nil]
      unfold getChannelQueue at this
      omega
    · rw [if_neg hc]
      exact h c

theorem admitAll_bounded (l : List (DMessage × Nat)) :
    ∀ qs : QueueMap, (∀ c, (qs c).queue.length ≤ maxQueueSize) →
      ∀ c, ((admitAll qs l) c).queue.length ≤ maxQueueSize := by
  induction l with
  | nil => intro qs h c; exact h c
  | cons p rest ih =>
    intro qs h c
    exact ih (queueMessage qs p.1 p.2).queues (queueMessage_bounded qs p.1 p.2 h) c

/-- C1: queueMessage returns false and leaves the queue map untouched whenever
the channel's queue already holds maxQueueSize (5) items; otherwise it returns
true, appends exactly the new item to that channel's queue, and leaves every
other channel unchanged; consequently, under any sequence of admissions a
queue never grows beyond 5 items. -/
theorem c1_queue_admission (qs : QueueMap) (m : DMessage) (now : Nat) :
    (maxQueueSize ≤ (qs m.channelId).queue.length →
      (queueMessage qs m now).accepted = false ∧ (queueMessage qs m now).queues = qs)
  ∧ ((qs m.channelId).queue.length < maxQueueSize →
      (queueMessage qs m now).accepted = true ∧
      ((queueMessage qs m now).queues m.channelId).queue =
        (qs m.channelId).queue ++ [{ message := m, timestamp := now }] ∧
      (∀ c, ¬ c = m.channelId → (queueMessage qs m now).queues c = qs c))
  ∧ (∀ l : List (DMessage × Nat), (∀ c, (qs c).queue.length ≤ maxQueueSize) →
      ∀ c, ((admitAll qs l) c).queue.length ≤ maxQueueSize) := by
  refine ⟨?_, ?_, ?_⟩
  · intro hfull
    unfold queueMessage getChannelQueue
    rw [if_pos hfull]
    exact ⟨rfl, rfl⟩
  · intro hlt
    have hnot : ¬ maxQueueSize ≤ (qs m.channelId).queue.length :=
      Nat.not_le_of_lt hlt
    unfold queueMessage getChannelQueue
    rw [if_neg hnot]
    refine ⟨rfl, ?_, ?_⟩
    · show ((setChannelQueue qs m.channelId _) m.channelId).queue = _
      unfold setChannelQueue
      rw [if_pos rfl]
    · intro c hc
      show (setChannelQueue qs m.channelId _) c = qs c
      unfold setChannelQueue
      rw [if_neg hc]
  · intro l h c
    exact admitAll_bounded l qs h c

/-- Scenario A state: one channel whose queue already holds 5 items. -/
def qsScenarioA : QueueMap := fun _ =>
  { queue :=
      [ { message := { id := "m1", channelId := "ch" }, timestamp := 0 }
      , { message := { id := "m2", channelId := "ch" }, timestamp := 1 }
      , { message := { id := "m3", channelId := "ch" }, timestamp := 2 }
      , { message := { id := "m4", channelId := "ch" }, timestamp := 3 }
      , { message := { id := "m5", channelId := "ch" }, timestamp := 4 } ]
  , isProcessing := false }

theorem c1_queue_admission_witness :
    (queueMessage qsScenarioA { id := "m6", channelId := "ch" } 5).accepted = false
  ∧ (queueMessage qsScenarioA { id := "m6", channelId := "ch" } 5).queues = qsScenarioA :=
  (c1_queue_admission qsScenarioA { id := "m6", channelId := "ch" } 5).1 (by decide)

/-! ## Claim C2: worker serialization and flag recovery -/

theorem processQueuedMessage_ok (o : Except ProcErr Unit) :
    processQueuedMessage o = .ok () := by
  cases o <;> rfl

theorem workerLoop_spec (q : List QueuedMessage) :
    ∀ outs, (workerLoop q outs).1 = [] := by
  induction q with
  | nil => intro outs; rfl
  | cons m rest ih =>
    intro outs
    unfold workerLoop
    rw [processQueuedMessage_ok]
    exact ih outs.tail

/-- C2: the worker is serialized by the isProcessing flag and recovers it on
any outcome: a second invocation while the flag is set returns immediately
with nothing done; a run started with the flag clear processes every queued
item whatever the scripted per-item outcomes are (failures are caught inside
processQueuedMessage and never abort the loop), holds the flag during the
whole run, and clears it at the end. -/
theorem c2_worker_serialization (st : ChannelQueueSt)
    (outcomes : List (Except ProcErr Unit)) (h : st.isProcessing = false) :
    ((processChannelQueue st outcomes).1.isProcessing = false
  ∧ (processChannelQueue st outcomes).1.queue = []
  ∧ (∀ t ∈ (processChannelQueue st outcomes).2, t.isProcessing = true))
  ∧ (∀ (st2 : ChannelQueueSt) (outs2 : List (Except ProcErr Unit)),
      st2.isProcessing = true → processChannelQueue st2 outs2 = (st2, [])) := by
  constructor
  · have hguard : ¬ st.isProcessing = true := by rw [h]; exact Bool.false_ne_true
    unfold processChannelQueue
    rw [if_neg hguard]
    refine ⟨rfl, workerLoop_spec st.queue outcomes, ?_⟩
    intro t ht
    rcases List.mem_map.mp ht with ⟨s, _, hs⟩
    rw [← hs]
  · intro st2 outs2 h2
    unfold processChannelQueue
    rw [if_pos h2]

theorem c2_worker_serialization_witness :
    ((processChannelQueue
        { queue := [{ message := { id := "m1", channelId := "ch" }, timestamp := 0 }]
        , isProcessing := false }
        [.error { message := "boom" }]).1.isProcessing = false)
  ∧ ((processChannelQueue
        { queue := [{ message := { id := "m1", channelId := "ch" }, timestamp := 0 }]
        , isProcessing := false }
        [.error { message := "boom" }]).1.queue = []) := by
  have h := c2_worker_serialization
    { queue := [{ message := { id := "m1", channelId := "ch" }, timestamp := 0 }]
    , isProcessing := false }
    [.error { message := "boom" }] rfl
  exact ⟨h.1.1, h.1.2.1⟩

/-! ## Claim C5: validity of the initial ladder cursor -/

/-- C5 (code bug evidence): in MODEL_CONFIG as initialized by
src/src/config/config.ts, the text-modality cursor "llama-3.1-70b-versatile"
is not an element of the configured text ladder (which holds the 3.3/3.2/3.1
models), while the vision cursor is a valid member of the vision ladder.  The
claimed invariant - the cursor is always an element of the configured model
list, including initially - is therefore violated by the initial state. -/
theorem c5_initial_text_cursor_not_in_ladder :
    MODEL_CONFIG_init.textModels.contains MODEL_CONFIG_init.currentTextModel = false
  ∧ MODEL_CONFIG_init.visionModels.contains MODEL_CONFIG_init.currentVisionModel = true := by
  decide

/-! ## Claims C3 and C4: fallback ladder and backoff retry -/

theorem jsFindIndex_of_nodup (l : List String) (hnd : l.Nodup) (i : Nat) (cur : String)
    (hi : l.get? i = some cur) : jsFindIndex (fun m => m = cur) l = (i : Int) := by
  induction l generalizing i with
  | nil => simp [List.get?] at hi
  | cons x xs ih =>
    rcases List.nodup_cons.mp hnd with ⟨hx, hxs⟩
    cases i with
    | zero =>
      have hx' : x = cur := by simpa [List.get?] using hi
      simp [jsFindIndex, hx']
    | succ j =>
      have hj : xs.get? j = some cur := by simpa [List.get?] using hi
      have hcur : cur ∈ xs := List.get?_mem hj
      have hne : ¬ x = cur := fun hc => hx (hc ▸ hcur)
      have hr := ih hxs j hj
      have hnb : (decide (x = cur)) = false := decide_eq_false hne
      simp only [jsFindIndex, hnb, Bool.false_eq_true, if_false, hr]
      have hnlt : ¬ ((j : Int) < 0) := by omega
      rw [if_neg hnlt]
      push_cast
      ring

theorem list_get?_congr_last (l : List String) (cur : String)
    (h : l.getLast? = some cur) : l.get? (l.length - 1) = some cur := by
  rw [← List.getLast?_eq_get?]
  exact h

/-- C3 (amended): when a rate-limit-shaped failure is handled, (a) if the
cursor is not at the last tier, it advances by exactly one tier, the wrapped
operation is retried immediately, and no retry-budget sleep is consumed; (b)
if the cursor is at the last tier and a wait with a positive minutes component
is extractable from the message, the cursor resets to tier 0; (c) if the
cursor is at the last tier and no wait with positive minutes is extractable
(including an extractable wait such as "0m30s" whose minutes component is 0),
no fallback occurs and the error falls through to the generic backoff retry. -/
theorem c3_fallback_ladder (st : ModelState) (e : JsError) (i : Nat)
    (hnd : st.textModels.Nodup) (hrl : isRateLimit e = true) :
    (st.textModels.get? i = some st.currentTextModel → i + 1 < st.textModels.length →
       handleModelFallback st e .text =
         (true, setCurrentModel st .text (st.textModels.getD (i + 1) ""))
       ∧ (∀ v, performResponse st [.error e, .ok v] =
           (.ok v, setCurrentModel st .text (st.textModels.getD (i + 1) ""), 2))
       ∧ (∀ v, generateResponseModel st [[.error e, .ok v]] =
           (.ok v, setCurrentModel st .text (st.textModels.getD (i + 1) ""), [])))
  ∧ (st.textModels.getLast? = some st.currentTextModel →
       (0 < jsWaitMinutes e →
          ∀ m0, st.textModels.head? = some m0 →
            handleModelFallback st e .text = (true, setCurrentModel st .text m0))
       ∧ (jsWaitMinutes e = 0 → handleModelFallback st e .text = (false, st))) := by
  have hrlne : ¬ isRateLimit e = false := by simp [hrl]
  constructor
  · intro hi hlen
    have hlenpos : 0 < st.textModels.length := Nat.lt_of_le_of_lt (Nat.zero_le _) hlen
    have hlast : st.textModels.get? (st.textModels.length - 1) =
        some (st.textModels.get ⟨st.textModels.length - 1, by omega⟩) :=
      List.get?_eq_get (by omega)
    have hgetLast : st.textModels.getLast? =
        some (st.textModels.get ⟨st.textModels.length - 1, by omega⟩) := by
      rw [List.getLast?_eq_get?]; exact hlast
    have hne : ¬ st.currentTextModel = st.textModels.get ⟨st.textModels.length - 1, by omega⟩ := by
      intro hc
      have hieq : i = st.textModels.length - 1 := by
        refine List.get?_inj (by omega) hnd ?_
        rw [hi, hlast, hc]
      omega
    have hidx := jsFindIndex_of_nodup st.textModels hnd i st.currentTextModel hi
    have hadv : handleModelFallback st e .text =
        (true, setCurrentModel st .text (st.textModels.getD (i + 1) "")) := by
      simp only [handleModelFallback, getModelsFor, getCurrentModel]
      rw [if_neg hrlne, hgetLast]
      simp only [decide_eq_false hne, Bool.false_and, Bool.false_eq_true, if_false, hidx]
      have hle : ¬ ((st.textModels.length : Int) ≤ (i : Int) + 1) := by
        omega
      rw [if_neg hle]
      have : ((i : Int) + 1).toNat = i + 1 := by omega
      rw [this]
    have hperf : ∀ v : String, performResponse st [.error e, .ok v] =
        (.ok v, setCurrentModel st .text (st.textModels.getD (i + 1) ""), 2) := by
      intro v
      simp [performResponse, hadv]
    refine ⟨hadv, hperf, ?_⟩
    intro v
    simp [generateResponseModel, genRetryGo, hperf]
  · intro hlast
    constructor
    · intro hpos m0 hm0
      have hm0d : st.textModels.headD "" = m0 := by
        cases h : st.textModels with
        | nil => rw [h] at hm0; simp at hm0
        | cons x xs =>
          rw [h] at hm0
          simp only [List.head?, Option.some.injEq] at hm0
          rw [hm0]
          rfl
      simp [handleModelFallback, getModelsFor, getCurrentModel, hrl, hlast, hpos, hm0d, hm0]
    · intro hzero
      have hlenpos : 0 < st.textModels.length := by
        cases h : st.textModels with
        | nil => rw [h] at hlast; simp [List.getLast?] at hlast
        | cons x xs => simp [h]
      have hgl : st.textModels.get? (st.textModels.length - 1) = some st.currentTextModel :=
        list_get?_congr_last _ _ hlast
      have hidx := jsFindIndex_of_nodup st.textModels hnd (st.textModels.length - 1)
        st.currentTextModel hgl
      have hle : ((st.textModels.length : Int) ≤ ((st.textModels.length - 1 : Nat) : Int) + 1) := by
        omega
      simp [handleModelFallback, getModelsFor, getCurrentModel, hrl, hlast, hzero, hidx, hle]

/-- Scenario B ladder: three tiers, cursor at tier 0. -/
def stLadderB : ModelState :=
  { textModels := ["ta", "tb", "tc"], visionModels := []
  , currentTextModel := "ta", currentVisionModel := "" }

/-- Scenario C ladder: three tiers, cursor at the last tier. -/
def stLadderC : ModelState :=
  { textModels := ["ta", "tb", "tc"], visionModels := []
  , currentTextModel := "tc", currentVisionModel := "" }

def errNoWait : JsError :=
  { isErrorInstance := true, message := "429 too many requests" }

def errWait2m30 : JsError :=
  { isErrorInstance := true, message := "rate limit reached, please try again in 2m30s" }

def errWait0m30 : JsError :=
  { isErrorInstance := true, message := "rate limit reached, please try again in 0m30s" }

theorem c3_fallback_ladder_witness :
    handleModelFallback stLadderB errNoWait .text =
      (true, { textModels := ["ta", "tb", "tc"], visionModels := []
             , currentTextModel := "tb", currentVisionModel := "" })
  ∧ generateResponseModel stLadderB [[.error errNoWait, .ok "hi"]] =
      (.ok "hi", { textModels := ["ta", "tb", "tc"], visionModels := []
                 , currentTextModel := "tb", currentVisionModel := "" }, [])
  ∧ handleModelFallback stLadderC errWait2m30 .text =
      (true, { textModels := ["ta", "tb", "tc"], visionModels := []
             , currentTextModel := "ta", currentVisionModel := "" }) := by
  have hB := (c3_fallback_ladder stLadderB errNoWait 0 (by decide) (by decide)).1
    (by decide) (by decide)
  have hC := ((c3_fallback_ladder stLadderC errWait2m30 2 (by decide) (by decide)).2
    (by decide)).1 (by decide) "ta" (by decide)
  refine ⟨?_, ?_, ?_⟩
  · rw [hB.1]; decide
  · rw [hB.2.2 "hi"]; rfl
  · rw [hC]; decide

/-- C3 counterexample: at the last tier with the overload error
"rate limit reached, please try again in 0m30s", a wait duration is
machine-extractable (the regex yields minutes 0, seconds 30), yet
handleModelFallback performs no reset (the code requires a positive minutes
component) and returns false with the state unchanged, contradicting the
claim that an extractable wait at the last tier resets the cursor to tier 0. -/
theorem c3_fallback_ladder_cex :
    extractWait errWait0m30.message = some (0, 30)
  ∧ isRateLimit errWait0m30 = true
  ∧ stLadderC.textModels.getLast? = some stLadderC.currentTextModel
  ∧ handleModelFallback stLadderC errWait0m30 .text = (false, stLadderC) := by
  decide

theorem retryGo_sleeps_length {α : Type} (op : Nat → Except JsError α) :
    ∀ (fuel retries delay : Nat), (retryGo op fuel retries delay).2.length ≤ fuel := by
  intro fuel
  induction fuel with
  | zero => intro r d; simp [retryGo]
  | succ n ih =>
    intro r d
    cases hop : op r with
    | ok v => simp [retryGo, hop]
    | error e =>
      simp only [retryGo, hop, List.length_cons]
      have := ih (r + 1) (if isRateLimit e then
        (match extractWait e.message with
         | some p => max d (p.1 * 60000 + 5000)
         | none => d * 2)
        else d * 2)
      omega

theorem retryGo_error_spec {α : Type} (op : Nat → Except JsError α) :
    ∀ (fuel retries delay : Nat) (e : JsError),
      (retryGo op fuel retries delay).1 = .error e →
      (retryGo op fuel retries delay).2.length = fuel ∧ op (retries + fuel) = .error e := by
  intro fuel
  induction fuel with
  | zero =>
    intro r d e h
    simp only [retryGo] at h
    exact ⟨rfl, by simpa using h⟩
  | succ n ih =>
    intro r d e h
    cases hop : op r with
    | ok v => rw [retryGo, hop] at h; cases h
    | error e0 =>
      rw [retryGo, hop] at h
      simp only at h
      have hrec := ih (r + 1) _ e h
      refine ⟨?_, ?_⟩
      · simp only [retryGo, hop, List.length_cons]
        omega
      · have : r + (n + 1) = r + 1 + n := by omega
        rw [this]
        exact hrec.2

theorem retryGo_generic_schedule {α : Type} (op : Nat → Except JsError α)
    (hgen : ∀ k e, op k = .error e → isRateLimit e = false) :
    ∀ (fuel retries delay : Nat), ∃ n,
      (retryGo op fuel retries delay).2 =
        (List.range n).map (fun k => delay * 2 ^ (k + 1)) := by
  intro fuel
  induction fuel with
  | zero => intro r d; exact ⟨0, rfl⟩
  | succ n ih =>
    intro r d
    cases hop : op r with
    | ok v => exact ⟨0, by simp [retryGo, hop]⟩
    | error e =>
      have hrl := hgen r e hop
      obtain ⟨m, hm⟩ := ih (r + 1) (d * 2)
      refine ⟨m + 1, ?_⟩
      simp only [retryGo, hop, hrl, Bool.false_eq_true, if_false, hm]
      rw [List.range_succ_eq_map, List.map_cons, List.map_map]
      have hfun : (fun k => d * 2 * 2 ^ (k + 1)) = ((fun k => d * 2 ^ (k + 1)) ∘ Nat.succ) := by
        funext k
        simp only [Function.comp, Nat.succ_eq_add_one]
        ring
      rw [hfun]
      have hhead : d * 2 ^ (0 + 1) = d * 2 := by ring
      rw [hhead]

/-- C4 (amended): retryWithBackoff with the default budget (maxRetries 3,
initialDelay 2500 ms) performs at most 3 retry sleeps; if it fails it has
slept exactly 3 times and re-raises the error of the fourth (last) call; an
immediately successful operation sleeps never; when every failure is generic
(not rate-limit-shaped) the `delay` variable starting at 2500 ms is doubled
before each sleep, so the waits are 5000, 10000, 20000 ms (the first wait is
2 x initialDelay, not initialDelay); and when the first failure is
rate-limit-shaped with an extractable wait, the first sleep is the larger of
the current delay (2500 ms) and the extracted minutes plus a 5-second buffer
(the seconds component of the match is ignored by the code). -/
theorem c4_retry_backoff (op : Nat → Except JsError String) :
    ((retryWithBackoff op 3 2500).2.length ≤ 3)
  ∧ (∀ e, (retryWithBackoff op 3 2500).1 = .error e →
      (retryWithBackoff op 3 2500).2.length = 3 ∧ op 3 = .error e)
  ∧ (∀ v, op 0 = .ok v → retryWithBackoff op 3 2500 = (.ok v, []))
  ∧ ((∀ k e, op k = .error e → isRateLimit e = false) →
      (retryWithBackoff op 3 2500).2 =
        (List.range (retryWithBackoff op 3 2500).2.length).map (fun k => 2500 * 2 ^ (k + 1)))
  ∧ (∀ e p, op 0 = .error e → isRateLimit e = true → extractWait e.message = some p →
      ∃ rest, (retryWithBackoff op 3 2500).2 = max 2500 (p.1 * 60000 + 5000) :: rest) := by
  refine ⟨?_, ?_, ?_, ?_, ?_⟩
  · exact retryGo_sleeps_length op 3 0 2500
  · intro e h
    have := retryGo_error_spec op 3 0 2500 e h
    simpa using this
  · intro v hv
    simp [retryWithBackoff, retryGo, hv]
  · intro hgen
    obtain ⟨n, hn⟩ := retryGo_generic_schedule op hgen 3 0 2500
    have hlen : (retryWithBackoff op 3 2500).2.length = n := by
      show (retryGo op 3 0 2500).2.length = n
      rw [hn]
      simp
    show (retryGo op 3 0 2500).2 = _
    rw [hn]
    show _ = (List.range (retryGo op 3 0 2500).2.length).map _
    rw [hn]
    simp
  · intro e p h0 hrl hex
    refine ⟨(retryGo op 2 1 (max 2500 (p.1 * 60000 + 5000))).2, ?_⟩
    simp [retryWithBackoff, retryGo, h0, hrl, hex]

def c4opGen : Nat → Except JsError String :=
  fun _ => .error { isErrorInstance := true, message := "boom" }

theorem c4_retry_backoff_witness :
    (retryWithBackoff c4opGen 3 2500).2 = [5000, 10000, 20000] := by
  have h := (c4_retry_backoff c4opGen).2.2.2.1 (by
    intro k e hk
    simp only [c4opGen, Except.error.injEq] at hk
    rw [← hk]
    decide)
  rw [h]
  decide

def c4opOnce : Nat → Except JsError String := fun k =>
  if k = 0 then .error { isErrorInstance := true, message := "boom" } else .ok "done"

/-- C4 counterexample: for a generic first failure followed by success, the
single sleep before the (successful) first retry is 5000 ms, not the
initialDelay of 2500 ms claimed by "delays starting at initialDelay (2.5s)":
the code doubles `delay` before sleeping. -/
theorem c4_retry_backoff_cex :
    (retryWithBackoff c4opOnce 3 2500).1 = .ok "done"
  ∧ (retryWithBackoff c4opOnce 3 2500).2 = [5000]
  ∧ ¬ (5000 = 2500) := by
  refine ⟨?_, ?_, ?_⟩
  · rfl
  · rfl
  · decide

/-! ## Character-level scanners for the emoji regexes

All regexes used by the source are backtracking-free on their inputs: in
`:([\w-]+):` and `<(a)?:[\w-]+:\d{17,20}>` every quantified class excludes the
character that follows it, so the greedy run is forced and a match attempt at
a position either succeeds deterministically or fails, after which the JS
engine advances one character - exactly what these scanners do.  The scanners
take fuel and consume at least one input character per step, so fuel equal to
the input length is always sufficient; top-level wrappers pass exactly that. -/

def isAlnumCh (c : Char) : Bool :=
  (decide ('a' ≤ c) && decide (c ≤ 'z')) || (decide ('A' ≤ c) && decide (c ≤ 'Z')) ||
    isDigitCh c

def isWordCh (c : Char) : Bool := isAlnumCh c || decide (c = '_')

def isWordHy (c : Char) : Bool := isWordCh c || decide (c = '-')

def lowerL (l : List Char) : List Char := l.map Char.toLower

/-- Match of `<(a)?:NAME:ID>` starting exactly at the head of the input, where
NAME is a nonempty run over `nc` and the ID digit-run length satisfies
`lenOk`; returns (animated, name, id, rest after the match). -/
def matchCanonAt (nc : Char → Bool) (lenOk : Nat → Bool) (s : List Char) :
    Option (Bool × List Char × List Char × List Char) :=
  match s with
  | '<' :: rest =>
    let ar : Option Bool × List Char :=
      match rest with
      | 'a' :: ':' :: r => (some true, r)
      | ':' :: r => (some false, r)
      | _ => (none, rest)
    match ar with
    | (none, _) => none
    | (some a, rest1) =>
      let nm := rest1.takeWhile nc
      let rest2 := rest1.dropWhile nc
      if nm.isEmpty then none
      else
        match rest2 with
        | ':' :: rest3 =>
          let idr := rest3.takeWhile isDigitCh
          let rest4 := rest3.dropWhile isDigitCh
          if lenOk idr.length then
            match rest4 with
            | '>' :: rest5 => some (a, nm, idr, rest5)
            | _ => none
          else none
        | _ => none
  | _ => none

def len1720 (n : Nat) : Bool := decide (17 ≤ n) && decide (n ≤ 20)

def lenPos (n : Nat) : Bool := decide (1 ≤ n)

/-- The exact span consumed by a successful matchCanonAt. -/
def renderCanon (a : Bool) (nm idr : List Char) : List Char :=
  ['<'] ++ (if a then ['a'] else []) ++ [':'] ++ nm ++ [':'] ++ idr ++ ['>']

/-- JS `String.replace` with a global canonical-emoji pattern and a stateful
callback receiving the match components. -/
def canonScanF {σ : Type} (nc : Char → Bool) (lenOk : Nat → Bool)
    (f : σ → Bool × List Char × List Char → List Char × σ) :
    Nat → σ → List Char → List Char × σ
  | 0, st, s => (s, st)
  | fuel + 1, st, s =>
    match s with
    | [] => ([], st)
    | c :: cs =>
      match matchCanonAt nc lenOk (c :: cs) with
      | some (a, nm, idr, rest) =>
        let r1 := f st (a, nm, idr)
        let r2 := canonScanF nc lenOk f fuel r1.2 rest
        (r1.1 ++ r2.1, r2.2)
      | none =>
        let r := canonScanF nc lenOk f fuel st cs
        (c :: r.1, r.2)

/-- JS `String.replace` with a global `:NAME:` pattern over the character
class `wc` and a stateful callback receiving the name. -/
def tokScanF {σ : Type} (wc : Char → Bool) (f : σ → List Char → List Char × σ) :
    Nat → σ → List Char → List Char × σ
  | 0, st, s => (s, st)
  | fuel + 1, st, s =>
    match s with
    | [] => ([], st)
    | c :: cs =>
      if c = ':' then
        match cs.takeWhile wc, cs.dropWhile wc with
        | _ :: _, ':' :: rest2 =>
          let r1 := f st (cs.takeWhile wc)
          let r2 := tokScanF wc f fuel r1.2 rest2
          (r1.1 ++ r2.1, r2.2)
        | _, _ =>
          let r := tokScanF wc f fuel st cs
          (c :: r.1, r.2)
      else
        let r := tokScanF wc f fuel st cs
        (c :: r.1, r.2)

/-- JS `String.match` without the global flag: first canonical match anywhere. -/
def parseDiscordEmojiF : Nat → List Char → Option (Bool × List Char × List Char)
  | 0, _ => none
  | fuel + 1, s =>
    match s with
    | [] => none
    | c :: cs =>
      match matchCanonAt isWordHy len1720 (c :: cs) with
      | some (a, nm, idr, _) => some (a, nm, idr)
      | none => parseDiscordEmojiF fuel cs

/-- parseDiscordEmoji, emojiService.ts lines 771-782: first match of
`<(a)?:(?<name>[\w-]+):(?<id>\d\x7b17,20\x7d)>` in the text. -/
def parseDiscordEmoji (s : List Char) : Option (Bool × List Char × List Char) :=
  parseDiscordEmojiF s.length s

/-- JS `regex.test` for a canonical-emoji pattern: does any position match? -/
def containsCanonF (nc : Char → Bool) (lenOk : Nat → Bool) : Nat → List Char → Bool
  | 0, _ => false
  | fuel + 1, s =>
    match s with
    | [] => false
    | c :: cs =>
      (matchCanonAt nc lenOk (c :: cs)).isSome || containsCanonF nc lenOk fuel cs

/-- JS `String.replace(new RegExp(literal, 'g'), rep)` for a literal pattern:
replace every (non-overlapping, leftmost) occurrence. -/
def replaceAllF (pat rep : List Char) : Nat → List Char → List Char
  | 0, s => s
  | fuel + 1, s =>
    match s with
    | [] => []
    | c :: cs =>
      if pat.isPrefixOf (c :: cs) && !pat.isEmpty then
        rep ++ replaceAllF pat rep fuel ((c :: cs).drop pat.length)
      else c :: replaceAllF pat rep fuel cs

def replaceAll (pat rep s : List Char) : List Char := replaceAllF pat rep s.length s

/-- JS `String.replace(new RegExp(pfx + "\\d+", 'g'), '')`: delete every
occurrence of the prefix followed by at least one digit. -/
def removePhRunsF (pfxL : List Char) : Nat → List Char → List Char
  | 0, s => s
  | fuel + 1, s =>
    match s with
    | [] => []
    | c :: cs =>
      if pfxL.isPrefixOf (c :: cs) && !pfxL.isEmpty then
        if (((c :: cs).drop pfxL.length).takeWhile isDigitCh).isEmpty then
          c :: removePhRunsF pfxL fuel cs
        else
          removePhRunsF pfxL fuel
            (((c :: cs).drop pfxL.length).drop
              (((c :: cs).drop pfxL.length).takeWhile isDigitCh).length)
      else c :: removePhRunsF pfxL fuel cs

def removePhRuns (pfxL s : List Char) : List Char := removePhRunsF pfxL s.length s

/-! ## processEmojiText, emojiService.ts revision 2 (lines 787-913) -/

def validCoreTail : List Char → Bool
  | [] => false
  | [c] => isAlnumCh c
  | c :: rest => isWordHy c && validCoreTail rest

/-- The anchored pattern `^[a-zA-Z0-9][a-zA-Z0-9-_]*[a-zA-Z0-9]$`. -/
def validCore : List Char → Bool
  | [] => false
  | [_] => false
  | c :: rest => isAlnumCh c && validCoreTail rest

def hasPair (a b : Char) : List Char → Bool
  | [] => false
  | [_] => false
  | x :: y :: rest => (decide (x = a) && decide (y = b)) || hasPair a b (y :: rest)

/-- `a` occurring somewhere strictly before `b` (the regex `a.*b`). -/
def hasSeq (a b : Char) : List Char → Bool
  | [] => false
  | x :: rest => (decide (x = a) && rest.contains b) || hasSeq a b rest

/-- isValidEmojiName, emojiService.ts lines 288-304 and 750-766. -/
def isValidEmojiName (name : List Char) : Bool :=
  decide (2 ≤ name.length) && decide (name.length ≤ 32) && validCore name &&
  !(hasPair '_' '_' name) && !(hasPair '-' '-' name) &&
  !(hasSeq '-' '_' name || hasSeq '_' '-' name)

/-- `/^\d\x7b17,20\x7d$/.test(id)`. -/
def idOk (idr : List Char) : Bool :=
  decide (17 ≤ idr.length) && decide (idr.length ≤ 20) && idr.all isDigitCh

/-- `uniquePrefix = "__EMOJI_" + Date.now() + "_"`; Date.now() is passed in
as the `now` parameter. -/
def uniquePfx (now : Nat) : List Char := ("__EMOJI_" ++ Nat.repr now ++ "_").toList

def phName (now cnt : Nat) : List Char := uniquePfx now ++ (Nat.repr cnt).toList

/-- The mutable context threaded through one processEmojiText run: the
service state, the placeholderCount, and the placeholders Map (insertion
order preserved). -/
def PhSt : Type := EmojiState × Nat × List (List Char × List Char)

/-- The replace callback of preserveDiscordEmojis (lines 797-812): re-parse
the matched text, re-validate name and id, track usage, and swap in a fresh
placeholder. -/
def preserveCb (now : Nat) (isFromBot : Bool) (ctx : PhSt)
    (m : Bool × List Char × List Char) : List Char × PhSt :=
  match parseDiscordEmoji (renderCanon m.1 m.2.1 m.2.2) with
  | none => (renderCanon m.1 m.2.1 m.2.2, ctx)
  | some (_, nm, idr) =>
    if !(isValidEmojiName nm) then (renderCanon m.1 m.2.1 m.2.2, ctx)
    else if !(idOk idr) then (renderCanon m.1 m.2.1 m.2.2, ctx)
    else
      (phName now ctx.2.1,
       (trackEmojiUsage ctx.1 (String.mk (lowerL nm)) isFromBot,
        ctx.2.1 + 1,
        ctx.2.2 ++ [(phName now ctx.2.1, renderCanon m.1 m.2.1 m.2.2)]))

def preserveDiscordEmojis (now : Nat) (isFromBot : Bool) (ctx : PhSt)
    (input : List Char) : List Char × PhSt :=
  canonScanF isWordHy len1720 (preserveCb now isFromBot) input.length ctx input

/-- The replace callback of processUnformattedEmojis (lines 817-873):
skip placeholders, validate the name, look the name up (lowercased, then
exact), and either swap in a placeholder for the canonical form (tracking
usage) or leave the token unchanged. -/
def unformattedCb (now : Nat) (isFromBot : Bool) (ctx : PhSt)
    (name : List Char) : List Char × PhSt :=
  if (uniquePfx now).isPrefixOf ([':'] ++ name ++ [':']) then ([':'] ++ name ++ [':'], ctx)
  else if !(isValidEmojiName name) then ([':'] ++ name ++ [':'], ctx)
  else
    match (match alGet ctx.1.emojiCache (String.mk (lowerL name)) with
           | some e => some e
           | none => alGet ctx.1.emojiCache (String.mk name)) with
    | some e =>
      (phName now ctx.2.1,
       (trackEmojiUsage ctx.1 (lowerS e.name) isFromBot,
        ctx.2.1 + 1,
        ctx.2.2 ++ [(phName now ctx.2.1,
          (if e.animated then "<a:" else "<:").toList ++ e.name.toList ++ [':'] ++
            e.id.toList ++ ['>'])]))
    | none => ([':'] ++ name ++ [':'], ctx)

def processUnformattedEmojis (now : Nat) (isFromBot : Bool) (ctx : PhSt)
    (input : List Char) : List Char × PhSt :=
  tokScanF isWordHy (unformattedCb now isFromBot) input.length ctx input

/-- cleanupText (lines 877-894): restore placeholders longest-key-first
(JS sort is stable, so equal-length keys keep insertion order), then delete
any leftover placeholder pattern.  The regex-escaping of the placeholder is
the identity (placeholders contain only word characters). -/
def cleanupText (now : Nat) (phs : List (List Char × List Char))
    (input : List Char) : List Char :=
  removePhRuns (uniquePfx now)
    ((sortBy (fun a b => decide (b.1.length ≤ a.1.length)) phs).foldl
      (fun acc pe => replaceAll pe.1 pe.2 acc) input)

/-- The try-block of processEmojiText (lines 790-902).  Every step of the
body is total, so the result is always `.ok`; the Except type records that
the block runs under the catch handler below. -/
def processEmojiTextBody (st : EmojiState) (now : Nat) (isFromBot : Bool)
    (text : List Char) : Except Unit (List Char × EmojiState) :=
  let r1 := preserveDiscordEmojis now isFromBot (st, 0, []) text
  let r2 := processUnformattedEmojis now isFromBot r1.2 r1.1
  .ok (cleanupText now r2.2.2.2 r2.1, r2.2.1)

/-- The catch handler (lines 904-911): on any error, return the original text
with the state as it stands. -/
def emojiCatch (text : List Char) (st : EmojiState)
    (r : Except Unit (List Char × EmojiState)) : List Char × EmojiState :=
  match r with
  | .ok x => x
  | .error _ => (text, st)

/-- processEmojiText, emojiService.ts lines 787-913: falsy (empty) input
returns "", otherwise the three-pass placeholder pipeline runs under
try/catch. -/
def processEmojiText (st : EmojiState) (now : Nat) (isFromBot : Bool)
    (text : List Char) : List Char × EmojiState :=
  if text.isEmpty then ([], st)
  else emojiCatch text st (processEmojiTextBody st now isFromBot text)

/-! ## The EmojiService revision embedded in messageQueueService.ts
(second chunk, lines 218-465): top-K updateAvailableEmojis, unflagged
trackEmojiUsage, and the placeholder-based processEmojiText. -/

/-- `this.emojiRankings.get(e.name?.toLowerCase() ?? "") ?? 0`. -/
def guildRank (st : EmojiState) (e : GuildEmoji) : Nat :=
  (alGet st.emojiRankings (lowerS (e.name.getD ""))).getD 0

/-- The forEach body of the top-K updateAvailableEmojis (lines 290-299). -/
def mqsCacheStep (gid : String) (m : List (String × CachedEmoji)) (e : GuildEmoji) :
    List (String × CachedEmoji) :=
  if jsTruthy e.name then
    alSet m (lowerS (e.name.getD ""))
      { id := e.id, name := e.name.getD "", animated := e.animated.getD false
      , guildId := gid }
  else m

/-- updateAvailableEmojis, messageQueueService.ts lines 274-310: clear the
cache, sort the guild emojis that have names by descending ranking (stable),
keep the top 15, and cache those by lowercased name. -/
def mqsUpdateAvailableEmojis (st : EmojiState) : EmojiState :=
  match st.currentGuildId, st.currentGuildEmojis with
  | some gid, some emojis =>
    { st with emojiCache :=
        (((sortBy (fun a b => decide (guildRank st b ≤ guildRank st a))
            (emojis.filter (fun e => jsTruthy e.name))).take 15).foldl
          (mqsCacheStep gid) []) }
  | _, _ => st

/-- trackEmojiUsage, messageQueueService.ts lines 356-377 (no isFromBot
flag): always increments, then recomputes the top-K cache when the new count
reaches the lowest ranked cached emoji. -/
def mqsTrackEmojiUsage (st : EmojiState) (emojiName : String) : EmojiState :=
  let newCount := (alGet st.emojiRankings emojiName).getD 0 + 1
  let st1 := { st with emojiRankings := alSet st.emojiRankings emojiName newCount }
  match (sortBy (fun a b =>
      decide ((alGet st1.emojiRankings (lowerS a.name)).getD 0 <
              (alGet st1.emojiRankings (lowerS b.name)).getD 0))
      (alValues st1.emojiCache)).head? with
  | some lowestTopEmoji =>
    if (alGet st1.emojiRankings (lowerS lowestTopEmoji.name)).getD 0 ≤ newCount then
      mqsUpdateAvailableEmojis st1
    else st1
  | none => st1

/-- The `:([a-zA-Z0-9_-]+):` replace callback of the messageQueueService.ts
processEmojiText (lines 418-426): track the lowercased name unconditionally,
then format it if cached, else reconstruct the token unchanged. -/
def mqsColonCb (st : EmojiState) (name : List Char) : List Char × EmojiState :=
  let st1 := mqsTrackEmojiUsage st (String.mk (lowerL name))
  match alGet st1.emojiCache (String.mk (lowerL name)) with
  | some e =>
    ((if e.animated then "<a:" else "<:").toList ++ e.name.toList ++ [':'] ++
      e.id.toList ++ ['>'], st1)
  | none => ([':'] ++ name ++ [':'], st1)

/-- The `/__EMOJI(\d+)__/g` restore pass (lines 429-431); an out-of-range
index is JS `undefined`, stringified into the output. -/
def mqsRestoreF (phs : List (List Char)) : Nat → List Char → List Char
  | 0, s => s
  | fuel + 1, s =>
    match s with
    | [] => []
    | c :: cs =>
      if ("__EMOJI".toList).isPrefixOf (c :: cs) then
        if (((c :: cs).drop 7).takeWhile isDigitCh).isEmpty then
          c :: mqsRestoreF phs fuel cs
        else
          if ("__".toList).isPrefixOf
              (((c :: cs).drop 7).drop (((c :: cs).drop 7).takeWhile isDigitCh).length) then
            phs.getD (digitsToNat (((c :: cs).drop 7).takeWhile isDigitCh)) "undefined".toList
              ++ mqsRestoreF phs fuel
                ((((c :: cs).drop 7).drop
                  (((c :: cs).drop 7).takeWhile isDigitCh).length).drop 2)
          else c :: mqsRestoreF phs fuel cs
      else c :: mqsRestoreF phs fuel cs

/-- processEmojiText, messageQueueService.ts lines 400-432: (1) track usage
from already formatted emojis matched by `/<a?:(\w+):\d+>/g`; (2) preserve
formatted emojis matched by `/(<a?:[\w-]+:\d+>)/g` behind `__EMOJI\x7bn\x7d__`
placeholders; (3) rewrite `:([a-zA-Z0-9_-]+):` tokens, tracking every one;
(4) restore the placeholders. -/
def mqsProcessEmojiText (st : EmojiState) (text : List Char) :
    List Char × EmojiState :=
  let st1 := (canonScanF isWordCh lenPos
    (fun σ m => (renderCanon m.1 m.2.1 m.2.2,
                 mqsTrackEmojiUsage σ (String.mk (lowerL m.2.1))))
    text.length st text).2
  let p := canonScanF isWordHy lenPos
    (fun (σ : List (List Char)) m =>
      ("__EMOJI".toList ++ (Nat.repr σ.length).toList ++ "__".toList,
       σ ++ [renderCanon m.1 m.2.1 m.2.2]))
    text.length [] text
  let q := tokScanF isWordHy mqsColonCb p.1.length st1 p.1
  (mqsRestoreF p.2 q.1.length q.1, q.2)

/-! ## processEmojiText, emojiService.ts revision 3 (lines 1314-1412) -/

/-- isValidEmojiName of revision 3 (lines 1251-1264): `/^[\w-]\x7b2,32\x7d$/`. -/
def es3IsValidEmojiName (name : List Char) : Bool :=
  decide (2 ≤ name.length) && decide (name.length ≤ 32) && name.all isWordHy

/-- updateAvailableEmojis of revision 3 (lines 1056-1083): drop this guild's
entries, then re-cache every current guild emoji (no sorting, no bound). -/
def es3UpdateAvailableEmojis (st : EmojiState) : EmojiState :=
  match st.currentGuildId, st.currentGuildEmojis with
  | some gid, some emojis =>
    { st with emojiCache :=
        (emojis.foldl
          (fun m e =>
            match e.name with
            | none => m
            | some nm =>
              alSet m (lowerS nm)
                { id := e.id, name := nm, animated := e.animated.getD false
                , guildId := gid })
          (st.emojiCache.filter (fun kv => !decide (kv.2.guildId = gid)))) }
  | _, _ => st

/-- trackEmojiUsage of revision 3 (lines 1133-1167): same logic as the
revision-2 trackEmojiUsage but recomputing through the revision-3
updateAvailableEmojis. -/
def es3TrackEmojiUsage (st : EmojiState) (emojiName : String) (isFromBot : Bool) :
    EmojiState :=
  if isFromBot then st
  else
    let newCount := (alGet st.emojiRankings emojiName).getD 0 + 1
    let st1 := { st with emojiRankings := alSet st.emojiRankings emojiName newCount }
    match (sortBy (fun a b =>
        decide ((alGet st1.emojiRankings (lowerS a.name)).getD 0 <
                (alGet st1.emojiRankings (lowerS b.name)).getD 0))
        (alValues st1.emojiCache)).head? with
    | some lowestTopEmoji =>
      if (alGet st1.emojiRankings (lowerS lowestTopEmoji.name)).getD 0 ≤ newCount then
        es3UpdateAvailableEmojis st1
      else st1
    | none => st1

/-- The per-match tracking fold of revision 3's early-return branch
(lines 1322-1331): `matchAll /<(a)?:(\w+):(\d\x7b17,20\x7d)>/g`, tracking each
lowercased name. -/
def es3TrackAll (isFromBot : Bool) (st : EmojiState) (text : List Char) : EmojiState :=
  (canonScanF isWordCh len1720
    (fun σ m => (renderCanon m.1 m.2.1 m.2.2,
                 es3TrackEmojiUsage σ (String.mk (lowerL m.2.1)) isFromBot))
    text.length st text).2

/-- The `:(\w+):` replace callback of revision 3 (lines 1334-1368): validate,
look up the lowercased name only, and either format (tracking usage) or leave
the token unchanged. -/
def es3ColonCb (isFromBot : Bool) (st : EmojiState) (name : List Char) :
    List Char × EmojiState :=
  if !(es3IsValidEmojiName name) then ([':'] ++ name ++ [':'], st)
  else
    match alGet st.emojiCache (String.mk (lowerL name)) with
    | some e =>
      ((if e.animated then "<a:" else "<:").toList ++ e.name.toList ++ [':'] ++
        e.id.toList ++ ['>'],
       es3TrackEmojiUsage st (String.mk (lowerL name)) isFromBot)
    | none => ([':'] ++ name ++ [':'], st)

/-- First `<(?:a)?:(\w+):\d\x7b17,20\x7d>` match in the processed text, for the
lastUsedEmoji update (lines 1370-1375). -/
def es3FirstCanonName : Nat → List Char → Option (List Char)
  | 0, _ => none
  | fuel + 1, s =>
    match s with
    | [] => none
    | c :: cs =>
      match matchCanonAt isWordCh len1720 (c :: cs) with
      | some (_, nm, _, _) => some nm
      | none => es3FirstCanonName fuel cs

/-- processEmojiText, emojiService.ts revision 3 (lines 1314-1412): empty
input returns ""; if the text contains an already formatted emoji, usages are
tracked and the text is returned unchanged; otherwise `:(\w+):` tokens are
rewritten.  The cache-refresh step (refreshGuildEmojis, a network fetch) only
mutates the emoji cache, which the theorems below account for by quantifying
over the pre-state; the trailing unprocessed-emoji check only logs.  The
try/catch wrapper returns the input text on error; as in revision 2, every
step of the body is total. -/
def es3ProcessEmojiText (st : EmojiState) (isFromBot : Bool) (text : List Char) :
    List Char × EmojiState :=
  if text.isEmpty then ([], st)
  else
    if containsCanonF isWordCh len1720 text.length text then
      (text, es3TrackAll isFromBot st text)
    else
      let r := tokScanF isWordCh (es3ColonCb isFromBot) text.length st text
      if isFromBot then
        match es3FirstCanonName r.1.length r.1 with
        | some nm => (r.1, { r.2 with lastUsedEmoji := some (lowerS (String.mk nm)) })
        | none => (r.1, r.2)
      else (r.1, r.2)

/-! ## Claim C10: totality of processEmojiText -/

/-- C10: processEmojiText is total: a falsy (empty) input returns the empty
string with the state untouched; the try-block body always returns normally
(so the function never throws); and the catch handler, were the body ever to
error, returns the original text byte-for-byte with the state untouched. -/
theorem c10_processEmojiText_total (st : EmojiState) (now : Nat) (b : Bool)
    (text : List Char) (e : Unit) :
    processEmojiText st now b [] = ([], st)
  ∧ (∃ r, processEmojiTextBody st now b text = .ok r)
  ∧ emojiCatch text st (.error e) = (text, st) :=
  ⟨rfl, ⟨_, rfl⟩, rfl⟩

/-! ## Claim C8: top-K correctness of the hot-set recompute -/

theorem alGet_isSome_alSet {α : Type} (m : List (String × α)) (k k' : String) (v : α)
    (h : (alGet m k').isSome = true) : (alGet (alSet m k v) k').isSome = true := by
  by_cases hk : k = k'
  · subst hk; rw [alGet_alSet_self]; rfl
  · rw [alGet_alSet_ne m k k' v hk]; exact h

theorem alGet_alSet_self_isSome {α : Type} (m : List (String × α)) (k : String) (v : α) :
    (alGet (alSet m k v) k).isSome = true := by
  rw [alGet_alSet_self]; rfl

theorem alValues_cons {α : Type} (k : String) (v : α) (m : List (String × α)) :
    alValues ((k, v) :: m) = v :: alValues m := rfl

theorem alSet_values_sub {α : Type} (m : List (String × α)) (k : String) (v v' : α)
    (h : v' ∈ alValues (alSet m k v)) : v' = v ∨ v' ∈ alValues m := by
  induction m with
  | nil =>
    have : alSet ([] : List (String × α)) k v = [(k, v)] := rfl
    rw [this] at h
    rcases List.mem_cons.mp h with h | h
    · exact Or.inl h
    · cases h
  | cons kv rest ih =>
    obtain ⟨k0, v0⟩ := kv
    by_cases h0 : k0 = k
    · have hs : alSet ((k0, v0) :: rest) k v = (k0, v) :: rest := by
        simp only [alSet, if_pos h0]
      rw [hs, alValues_cons] at h
      rcases List.mem_cons.mp h with h | h
      · exact Or.inl h
      · exact Or.inr (by rw [alValues_cons]; exact List.mem_cons_of_mem v0 h)
    · have hs : alSet ((k0, v0) :: rest) k v = (k0, v0) :: alSet rest k v := by
        simp only [alSet, if_neg h0]
      rw [hs, alValues_cons] at h
      rcases List.mem_cons.mp h with h | h
      · exact Or.inr (by rw [alValues_cons]; exact h ▸ List.mem_cons_self v0 _)
      · rcases ih h with h | h
        · exact Or.inl h
        · exact Or.inr (by rw [alValues_cons]; exact List.mem_cons_of_mem v0 h)

theorem alSet_length_le {α : Type} (m : List (String × α)) (k : String) (v : α) :
    (alSet m k v).length ≤ m.length + 1 := by
  induction m with
  | nil => simp [alSet]
  | cons kv rest ih =>
    obtain ⟨k0, v0⟩ := kv
    by_cases h0 : k0 = k
    · simp [alSet, h0]
    · simp only [alSet, if_neg h0, List.length_cons]
      omega

theorem mqsCacheStep_length (gid : String) (m : List (String × CachedEmoji))
    (e : GuildEmoji) : (mqsCacheStep gid m e).length ≤ m.length + 1 := by
  unfold mqsCacheStep
  by_cases ht : jsTruthy e.name = true
  · rw [if_pos ht]; exact alSet_length_le _ _ _
  · rw [if_neg ht]; omega

theorem mqsCacheStep_isSome (gid : String) (m : List (String × CachedEmoji))
    (e : GuildEmoji) (k : String) (h : (alGet m k).isSome = true) :
    (alGet (mqsCacheStep gid m e) k).isSome = true := by
  unfold mqsCacheStep
  by_cases ht : jsTruthy e.name = true
  · rw [if_pos ht]
    exact alGet_isSome_alSet _ _ _ _ h
  · rw [if_neg ht]; exact h

theorem mqsCacheFold_length (gid : String) :
    ∀ (l : List GuildEmoji) (m : List (String × CachedEmoji)),
      (l.foldl (mqsCacheStep gid) m).length ≤ m.length + l.length := by
  intro l
  induction l with
  | nil => intro m; simp
  | cons e rest ih =>
    intro m
    have h1 := mqsCacheStep_length gid m e
    have h2 := ih (mqsCacheStep gid m e)
    simp only [List.foldl_cons, List.length_cons]
    omega

theorem mqsCacheFold_values (gid : String) :
    ∀ (l : List GuildEmoji) (m : List (String × CachedEmoji)) (ce : CachedEmoji),
      ce ∈ alValues (l.foldl (mqsCacheStep gid) m) →
      (∃ g ∈ l, jsTruthy g.name = true ∧
        ce = { id := g.id, name := g.name.getD "", animated := g.animated.getD false
             , guildId := gid })
      ∨ ce ∈ alValues m := by
  intro l
  induction l with
  | nil => intro m ce h; exact Or.inr h
  | cons e rest ih =>
    intro m ce h
    simp only [List.foldl_cons] at h
    rcases ih (mqsCacheStep gid m e) ce h with hmem | hacc
    · obtain ⟨g, hg, ht, hce⟩ := hmem
      exact Or.inl ⟨g, List.mem_cons_of_mem e hg, ht, hce⟩
    · unfold mqsCacheStep at hacc
      by_cases ht : jsTruthy e.name = true
      · rw [if_pos ht] at hacc
        rcases alSet_values_sub _ _ _ _ hacc with hv | hv
        · exact Or.inl ⟨e, List.mem_cons_self e rest, ht, hv⟩
        · exact Or.inr hv
      · rw [if_neg ht] at hacc
        exact Or.inr hacc

theorem mqsCacheFold_isSome_mono (gid : String) :
    ∀ (l : List GuildEmoji) (m : List (String × CachedEmoji)) (k : String),
      (alGet m k).isSome = true →
      (alGet (l.foldl (mqsCacheStep gid) m) k).isSome = true := by
  intro l
  induction l with
  | nil => intro m k h; exact h
  | cons e rest ih =>
    intro m k h
    simp only [List.foldl_cons]
    exact ih _ k (mqsCacheStep_isSome gid m e k h)

theorem mqsCacheFold_key_present (gid : String) :
    ∀ (l : List GuildEmoji) (m : List (String × CachedEmoji)) (g : GuildEmoji),
      g ∈ l → jsTruthy g.name = true →
      (alGet (l.foldl (mqsCacheStep gid) m) (lowerS (g.name.getD ""))).isSome = true := by
  intro l
  induction l with
  | nil => intro m g hg; cases hg
  | cons e rest ih =>
    intro m g hg ht
    simp only [List.foldl_cons]
    rcases List.mem_cons.mp hg with hg | hg
    · subst hg
      refine mqsCacheFold_isSome_mono gid rest _ _ ?_
      unfold mqsCacheStep
      rw [if_pos ht]
      exact alGet_alSet_self_isSome _ _ _
    · exact ih (mqsCacheStep gid m e) g hg ht

/-- C8 (amended): after a recompute by the top-K implementation
(messageQueueService.ts updateAvailableEmojis), the hot-set cache holds at
most 15 entries and every cached member's ranking count is at least the count
of every named guild emoji whose key is absent from the cache; the merge
implementation of emojiService.ts lines 137-155 does not have this property
(see the counterexample). -/
theorem c8_hotset_topk (st : EmojiState) (gid : String) (gemojis : List GuildEmoji)
    (h1 : st.currentGuildId = some gid) (h2 : st.currentGuildEmojis = some gemojis) :
    (mqsUpdateAvailableEmojis st).emojiCache.length ≤ 15
  ∧ (∀ ce ∈ alValues (mqsUpdateAvailableEmojis st).emojiCache,
      ∀ g ∈ gemojis, jsTruthy g.name = true →
        alGet (mqsUpdateAvailableEmojis st).emojiCache (lowerS (g.name.getD "")) = none →
        guildRank st g ≤ (alGet st.emojiRankings (lowerS ce.name)).getD 0) := by
  have hcache : (mqsUpdateAvailableEmojis st).emojiCache =
      ((sortBy (fun a b => decide (guildRank st b ≤ guildRank st a))
        (gemojis.filter (fun e => jsTruthy e.name))).take 15).foldl
        (mqsCacheStep gid) [] := by
    unfold mqsUpdateAvailableEmojis
    rw [h1, h2]
  constructor
  · rw [hcache]
    have h3 := mqsCacheFold_length gid
      ((sortBy (fun a b => decide (guildRank st b ≤ guildRank st a))
        (gemojis.filter (fun e => jsTruthy e.name))).take 15) []
    have h4 : ((sortBy (fun a b => decide (guildRank st b ≤ guildRank st a))
        (gemojis.filter (fun e => jsTruthy e.name))).take 15).length ≤ 15 :=
      List.length_take_le 15 _
    simp only [List.length_nil] at h3
    omega
  · intro ce hce g hg ht hnone
    rw [hcache] at hce hnone
    rcases mqsCacheFold_values gid _ [] ce hce with hmem | habs
    · obtain ⟨t, htop, httr, hcet⟩ := hmem
      -- the rank of the cached record is the rank of its source guild emoji
      have hrank : (alGet st.emojiRankings (lowerS ce.name)).getD 0 = guildRank st t := by
        rw [hcet]
        rfl
      rw [hrank]
      -- g is not among the taken 15 (its key is absent), so it was dropped
      have hgnot : g ∉ ((sortBy (fun a b => decide (guildRank st b ≤ guildRank st a))
          (gemojis.filter (fun e => jsTruthy e.name))).take 15) := by
        intro hgtop
        have := mqsCacheFold_key_present gid _ [] g hgtop ht
        rw [hnone] at this
        cases this
      have hgsorted : g ∈ sortBy (fun a b => decide (guildRank st b ≤ guildRank st a))
          (gemojis.filter (fun e => jsTruthy e.name)) := by
        rw [(sortBy_perm _ _).mem_iff]
        exact List.mem_filter.mpr ⟨hg, ht⟩
      have hsplit : g ∈ ((sortBy (fun a b => decide (guildRank st b ≤ guildRank st a))
            (gemojis.filter (fun e => jsTruthy e.name))).take 15) ++
          ((sortBy (fun a b => decide (guildRank st b ≤ guildRank st a))
            (gemojis.filter (fun e => jsTruthy e.name))).drop 15) := by
        rw [List.take_append_drop]
        exact hgsorted
      have hgdrop : g ∈ ((sortBy (fun a b => decide (guildRank st b ≤ guildRank st a))
          (gemojis.filter (fun e => jsTruthy e.name))).drop 15) := by
        rcases List.mem_append.mp hsplit with h | h
        · exact absurd h hgnot
        · exact h
      have hpw : (sortBy (fun a b => decide (guildRank st b ≤ guildRank st a))
          (gemojis.filter (fun e => jsTruthy e.name))).Pairwise
            (fun a b => guildRank st b ≤ guildRank st a) := by
        refine sortBy_pairwise _ _ ?_ ?_ _
        · intro a b c hab hbc
          exact le_trans hbc hab
        · intro a b
          constructor
          · intro hd
            exact of_decide_eq_true hd
          · intro hd
            have := of_decide_eq_false hd
            omega
      have hpw2 : (((sortBy (fun a b => decide (guildRank st b ≤ guildRank st a))
            (gemojis.filter (fun e => jsTruthy e.name))).take 15) ++
          ((sortBy (fun a b => decide (guildRank st b ≤ guildRank st a))
            (gemojis.filter (fun e => jsTruthy e.name))).drop 15)).Pairwise
            (fun a b => guildRank st b ≤ guildRank st a) := by
        rw [List.take_append_drop]
        exact hpw
      exact (List.pairwise_append.mp hpw2).2.2 t htop g hgdrop
    · simp [alValues] at habs

/-- Sixteen named guild emojis for the merge-recompute counterexample. -/
def guild16 : List GuildEmoji :=
  [ { id := "i01", name := some "e01", animated := some false }
  , { id := "i02", name := some "e02", animated := some false }
  , { id := "i03", name := some "e03", animated := some false }
  , { id := "i04", name := some "e04", animated := some false }
  , { id := "i05", name := some "e05", animated := some false }
  , { id := "i06", name := some "e06", animated := some false }
  , { id := "i07", name := some "e07", animated := some false }
  , { id := "i08", name := some "e08", animated := some false }
  , { id := "i09", name := some "e09", animated := some false }
  , { id := "i10", name := some "e10", animated := some false }
  , { id := "i11", name := some "e11", animated := some false }
  , { id := "i12", name := some "e12", animated := some false }
  , { id := "i13", name := some "e13", animated := some false }
  , { id := "i14", name := some "e14", animated := some false }
  , { id := "i15", name := some "e15", animated := some false }
  , { id := "i16", name := some "e16", animated := some false } ]

def st16 : EmojiState :=
  { emojiRankings := [], emojiCache := [], currentGuildId := some "g"
  , currentGuildEmojis := some guild16, lastUsedEmoji := none }

/-- C8 counterexample: the updateAvailableEmojis of emojiService.ts lines
137-155 (and 559-577) merges every guild emoji into the cache without sorting
or truncation, so one recompute over 16 guild emojis leaves 16 cached
entries, contradicting the claimed bound of K = 15. -/
theorem c8_hotset_topk_cex :
    (updateAvailableEmojisMerge st16).emojiCache.length = 16 ∧ ¬ (16 ≤ 15) := by
  refine ⟨by decide, by decide⟩

theorem c8_hotset_topk_witness :
    (mqsUpdateAvailableEmojis st16).emojiCache.length ≤ 15 :=
  (c8_hotset_topk st16 "g" guild16 rfl rfl).1

/-! ## Claim C9: idempotence of the rewrite on canonical-only text -/

/-- Fuel-free view of the token scanner: the wrappers in the embedding always
pass the input length as fuel, which is sufficient because every step consumes
at least one character. -/
def tokScan {σ : Type} (wc : Char → Bool) (f : σ → List Char → List Char × σ)
    (st : σ) (s : List Char) : List Char × σ :=
  tokScanF wc f s.length st s

theorem dropWhile_length_le (p : Char → Bool) (l : List Char) :
    (l.dropWhile p).length ≤ l.length := by
  induction l with
  | nil => simp [List.dropWhile]
  | cons c cs ih =>
    by_cases h : p c = true
    · rw [List.dropWhile_cons_of_pos h]
      simp only [List.length_cons]
      omega
    · rw [List.dropWhile_cons_of_neg (by simpa using h)]

theorem tokScanF_nil {σ : Type} (wc : Char → Bool) (f : σ → List Char → List Char × σ)
    (fuel : Nat) (st : σ) : tokScanF wc f fuel st [] = ([], st) := by
  cases fuel <;> rfl

theorem tokScanF_cons_emit {σ : Type} (wc : Char → Bool)
    (f : σ → List Char → List Char × σ) (fuel : Nat) (st : σ) (c : Char)
    (cs : List Char) (hc : ¬ c = ':') :
    tokScanF wc f (fuel + 1) st (c :: cs) =
      (c :: (tokScanF wc f fuel st cs).1, (tokScanF wc f fuel st cs).2) := by
  simp only [tokScanF, if_neg hc]

theorem tokScanF_colon_fail {σ : Type} (wc : Char → Bool)
    (f : σ → List Char → List Char × σ) (fuel : Nat) (st : σ) (cs : List Char)
    (h : ∀ rest2, ¬ cs.dropWhile wc = ':' :: rest2) :
    tokScanF wc f (fuel + 1) st (':' :: cs) =
      (':' :: (tokScanF wc f fuel st cs).1, (tokScanF wc f fuel st cs).2) := by
  cases hdw : cs.dropWhile wc with
  | nil =>
    simp only [tokScanF, if_pos rfl, hdw]
    cases cs.takeWhile wc <;> rw [if_true]
  | cons d ds =>
    have hd : ¬ d = ':' := fun hc => h ds (by rw [hdw, hc])
    simp only [tokScanF, if_pos rfl, hdw]
    cases htw : cs.takeWhile wc with
    | nil => rw [if_true]
    | cons r rs =>
      rw [if_true]
      split
      next x y heq => exact absurd heq (by simp [hd])
      next => rfl

/-- Head test of the `:(\w+):` scanner: does the remainder after the name run
start with the closing colon? -/
def headIsColon : List Char → Bool
  | [] => false
  | c :: _ => decide (c = ':')

/-- No position of the text starts a `:NAME:` token over the class `wc`:
at every colon, the remainder after the following `wc`-run does not start
with another colon. -/
def tokFreeB (wc : Char → Bool) : List Char → Bool
  | [] => true
  | c :: cs => (!decide (c = ':') || !headIsColon (cs.dropWhile wc)) && tokFreeB wc cs

theorem tokScanF_id {σ : Type} (wc : Char → Bool) (f : σ → List Char → List Char × σ) :
    ∀ (fuel : Nat) (st : σ) (s : List Char), s.length ≤ fuel →
      tokFreeB wc s = true → tokScanF wc f fuel st s = (s, st) := by
  intro fuel
  induction fuel with
  | zero =>
    intro st s _ _
    rfl
  | succ n ih =>
    intro st s hlen hfree
    cases s with
    | nil => rfl
    | cons c cs =>
      have hlen' : cs.length ≤ n := by
        simp only [List.length_cons] at hlen
        omega
      rw [tokFreeB] at hfree
      rw [Bool.and_eq_true] at hfree
      have hfree' := hfree.2
      by_cases hc : c = ':'
      · subst hc
        have hhd : ∀ rest2, ¬ cs.dropWhile wc = ':' :: rest2 := by
          intro rest2 hdp
          have h1 := hfree.1
          rw [hdp] at h1
          simp [headIsColon] at h1
        rw [tokScanF_colon_fail wc f n st cs hhd, ih st cs hlen' hfree']
      · rw [tokScanF_cons_emit wc f n st c cs hc, ih st cs hlen' hfree']

theorem takeWhile_append_all (p : Char → Bool) (w z : List Char)
    (hw : w.all p = true) : (w ++ z).takeWhile p = w ++ z.takeWhile p := by
  induction w with
  | nil => rfl
  | cons a as ih =>
    rw [List.all_cons, Bool.and_eq_true] at hw
    simp [List.takeWhile_cons, hw.1, ih hw.2]

theorem dropWhile_append_all (p : Char → Bool) (w z : List Char)
    (hw : w.all p = true) : (w ++ z).dropWhile p = z.dropWhile p := by
  induction w with
  | nil => rfl
  | cons a as ih =>
    rw [List.all_cons, Bool.and_eq_true] at hw
    simp [List.dropWhile_cons, hw.1, ih hw.2]

theorem dropWhile_append_cons (p : Char → Bool) (x y ds : List Char) (d : Char)
    (h : x.dropWhile p = d :: ds) :
    (x ++ y).dropWhile p = d :: (ds ++ y) := by
  induction x with
  | nil => simp [List.dropWhile] at h
  | cons a as ih =>
    by_cases ha : p a = true
    · rw [List.dropWhile_cons_of_pos ha] at h
      rw [List.cons_append, List.dropWhile_cons_of_pos ha]
      exact ih h
    · rw [List.dropWhile_cons_of_neg (by simpa using ha)] at h
      rw [List.cons_append, List.dropWhile_cons_of_neg (by simpa using ha)]
      cases h
      rfl

theorem all_eq_false_split (p : Char → Bool) (l : List Char) (h : l.all p = false) :
    ∃ w c t, l = w ++ c :: t ∧ w.all p = true ∧ p c = false := by
  induction l with
  | nil => simp at h
  | cons a as ih =>
    by_cases ha : p a = true
    · have has : as.all p = false := by
        rw [List.all_cons, ha, Bool.true_and] at h
        exact h
      obtain ⟨w, c, t, h1, h2, h3⟩ := ih has
      exact ⟨a :: w, c, t, by rw [h1]; rfl,
        by rw [List.all_cons, ha, Bool.true_and]; exact h2, h3⟩
    · exact ⟨[], a, as, rfl, rfl, by simpa using ha⟩

theorem colon_decomp_append (x y u v : List Char)
    (hx : ∀ c ∈ x, ¬ c = ':') (h : x ++ y = u ++ ':' :: v) :
    ∃ w, u = x ++ w ∧ y = w ++ ':' :: v := by
  rcases List.append_eq_append_iff.mp h with ⟨w, hw1, hw2⟩ | ⟨w, hw1, hw2⟩
  · exact ⟨w, hw1, hw2⟩
  · cases w with
    | nil =>
      refine ⟨[], by simpa using hw1.symm, by simpa using hw2.symm⟩
    | cons a t =>
      exfalso
      have ha : a = ':' := by
        have := hw2
        rw [List.cons_append] at this
        exact (List.cons_eq_cons.mp this).1.symm
      apply hx a
      · rw [hw1]
        exact List.mem_append_right _ (List.mem_cons_self _ _)
      · exact ha

theorem colon_decomp_cons (y u v : List Char) (h : ':' :: y = u ++ ':' :: v) :
    (u = [] ∧ v = y) ∨ ∃ w, u = ':' :: w ∧ y = w ++ ':' :: v := by
  cases u with
  | nil =>
    left
    constructor
    · rfl
    · have h2 : ':' :: y = ':' :: v := by simpa using h
      exact ((List.cons_eq_cons.mp h2).2).symm
  | cons a w =>
    right
    rw [List.cons_append] at h
    have h2 := List.cons_eq_cons.mp h
    exact ⟨w, by rw [h2.1], h2.2⟩

/-- A text made only of colon-free literal spans and already-canonical tagged
emoji references (name over `[\w-]`, id of 17-20 digits). -/
inductive Seg where
  | lit (s : List Char) : Seg
  | canon (a : Bool) (nm idr : List Char) : Seg
deriving DecidableEq

def renderSeg : Seg → List Char
  | .lit s => s
  | .canon a nm idr => renderCanon a nm idr

def renderSegs (segs : List Seg) : List Char := (segs.map renderSeg).join

/-- Wellformedness of a segment: literals are colon-free; canonical references
have a nonempty `[\w-]` name and a 17-20 digit id. -/
def segOK : Seg → Bool
  | .lit s => s.all (fun c => !decide (c = ':'))
  | .canon _ nm idr =>
      !nm.isEmpty && nm.all isWordHy && idr.all isDigitCh && len1720 idr.length

theorem renderSegs_cons (sg : Seg) (rest : List Seg) :
    renderSegs (sg :: rest) = renderSeg sg ++ renderSegs rest := by
  simp [renderSegs]

/-- Every colon inside the rendering of `sg` is followed (after the word run)
by a character other than a colon, within the segment itself. -/
def segNoTok (sg : Seg) : Prop :=
  ∀ u v, renderSeg sg = u ++ ':' :: v →
    ∃ d ds, v.dropWhile isWordCh = d :: ds ∧ ¬ d = ':'

theorem tokFreeB_append (wc : Char → Bool) (x y : List Char)
    (hy : tokFreeB wc y = true)
    (hx : ∀ u v, x = u ++ ':' :: v →
      ∃ d ds, v.dropWhile wc = d :: ds ∧ ¬ d = ':') :
    tokFreeB wc (x ++ y) = true := by
  induction x with
  | nil => simpa using hy
  | cons c x' ih =>
    rw [List.cons_append, tokFreeB, Bool.and_eq_true]
    constructor
    · by_cases hc : c = ':'
      · subst hc
        obtain ⟨d, ds, hdp, hd⟩ := hx [] x' rfl
        rw [dropWhile_append_cons wc x' y ds d hdp]
        simp [headIsColon, hd]
      · simp [hc]
    · exact ih (fun u v huv => hx (c :: u) v (by rw [huv]; rfl))

theorem tokFreeB_renderSegs (wc : Char → Bool) (segs : List Seg)
    (h : ∀ sg ∈ segs, ∀ u v, renderSeg sg = u ++ ':' :: v →
      ∃ d ds, v.dropWhile wc = d :: ds ∧ ¬ d = ':') :
    tokFreeB wc (renderSegs segs) = true := by
  induction segs with
  | nil => rfl
  | cons sg rest ih =>
    rw [renderSegs_cons]
    exact tokFreeB_append wc _ _
      (ih (fun s hs => h s (List.mem_cons_of_mem _ hs)))
      (h sg (List.mem_cons_self _ _))

theorem segNoTok_lit (s : List Char) (h : s.all (fun c => !decide (c = ':')) = true) :
    segNoTok (Seg.lit s) := by
  intro u v heq
  exfalso
  have hm : (':' : Char) ∈ s := by
    have heq' : s = u ++ ':' :: v := heq
    rw [heq']
    exact List.mem_append_right _ (List.mem_cons_self _ _)
  have := List.all_eq_true.mp h _ hm
  simp at this

/-- The opening `<a?` of a canonical reference. -/
def canonPre (a : Bool) : List Char := '<' :: (if a then ['a'] else [])

theorem renderCanon_shape (a : Bool) (nm idr : List Char) :
    renderCanon a nm idr = canonPre a ++ ':' :: (nm ++ ':' :: (idr ++ ['>'])) := by
  cases a <;> simp [renderCanon, canonPre]

theorem isWordHy_colon_false : isWordHy ':' = false := by decide

theorem isWordCh_gt_false : isWordCh '>' = false := by decide

theorem isWordCh_of_digit (c : Char) (h : isDigitCh c = true) : isWordCh c = true := by
  rw [isWordCh, isAlnumCh, h]
  simp

theorem segNoTok_canon (a : Bool) (nm idr : List Char)
    (hnm : nm.all isWordHy = true) (hnw : nm.all isWordCh = false)
    (hid : idr.all isDigitCh = true) :
    segNoTok (Seg.canon a nm idr) := by
  intro u v heq
  have heq' : canonPre a ++ ':' :: (nm ++ ':' :: (idr ++ ['>'])) = u ++ ':' :: v := by
    rw [← renderCanon_shape]
    exact heq
  have hpre : ∀ c ∈ canonPre a, ¬ c = ':' := by
    intro c hc
    cases a with
    | false =>
      have : c = '<' := by simpa [canonPre] using hc
      rw [this]
      decide
    | true =>
      have : c = '<' ∨ c = 'a' := by simpa [canonPre] using hc
      rcases this with h1 | h1 <;> rw [h1] <;> decide
  obtain ⟨w, hu, hy⟩ := colon_decomp_append _ _ _ _ hpre heq'
  rcases colon_decomp_cons _ _ _ hy with ⟨hw0, hv⟩ | ⟨w', hw', hrest⟩
  · -- the colon before the name: the name contains a non-word character
    obtain ⟨p, c, q, hsplit, hp, hc⟩ := all_eq_false_split isWordCh nm hnw
    have hcnm : c ∈ nm := by
      rw [hsplit]
      exact List.mem_append_right _ (List.mem_cons_self _ _)
    have hcw : isWordHy c = true := List.all_eq_true.mp hnm _ hcnm
    have hcne : ¬ c = ':' := by
      intro hcc
      rw [hcc] at hcw
      rw [isWordHy_colon_false] at hcw
      exact Bool.false_ne_true hcw
    refine ⟨c, q ++ ':' :: (idr ++ ['>']), ?_, hcne⟩
    rw [hv, hsplit, List.append_assoc, List.cons_append]
    rw [dropWhile_append_all isWordCh p _ hp]
    exact List.dropWhile_cons_of_neg (by simp [hc])
  · -- the colon is further right: inside or after the name
    have hnmfree : ∀ c ∈ nm, ¬ c = ':' := by
      intro c hc hcc
      have hcw := List.all_eq_true.mp hnm _ hc
      rw [hcc, isWordHy_colon_false] at hcw
      exact Bool.false_ne_true hcw
    obtain ⟨w2, hw2, h2⟩ := colon_decomp_append _ _ _ _ hnmfree hrest
    rcases colon_decomp_cons _ _ _ h2 with ⟨hw20, hv⟩ | ⟨w3, hw3, hrest3⟩
    · -- the colon before the id: the id run ends at the closing bracket
      refine ⟨'>', [], ?_, by decide⟩
      rw [hv]
      have hidw : idr.all isWordCh = true := by
        rw [List.all_eq_true]
        intro c hc
        exact isWordCh_of_digit c (List.all_eq_true.mp hid _ hc)
      rw [dropWhile_append_all isWordCh idr _ hidw]
      exact List.dropWhile_cons_of_neg (by simp [isWordCh_gt_false])
    · -- a further colon would have to live in the digits or the bracket
      exfalso
      have hmem : (':' : Char) ∈ idr ++ ['>'] := by
        rw [hrest3]
        exact List.mem_append_right _ (List.mem_cons_self _ _)
      rcases List.mem_append.mp hmem with hin | hin
      · have := List.all_eq_true.mp hid _ hin
        rw [show isDigitCh ':' = false by decide] at this
        exact Bool.false_ne_true this
      · simp at hin

theorem takeWhile_cons_neg (p : Char → Bool) (a : Char) (l : List Char)
    (ha : p a = false) : (a :: l).takeWhile p = [] :=
  List.takeWhile_cons_of_neg (by simp [ha])

theorem matchCanonAt_render (a : Bool) (nm idr rest : List Char)
    (hne : ¬ nm = []) (hnm : nm.all isWordCh = true)
    (hid : idr.all isDigitCh = true) (hlen : len1720 idr.length = true) :
    matchCanonAt isWordCh len1720 (renderCanon a nm idr ++ rest) =
      some (a, nm, idr, rest) := by
  have hshape : renderCanon a nm idr ++ rest =
      '<' :: ((if a then ['a'] else []) ++
        (':' :: (nm ++ ':' :: (idr ++ '>' :: rest)))) := by
    cases a <;> simp [renderCanon]
  rw [hshape]
  have htw : (nm ++ ':' :: (idr ++ '>' :: rest)).takeWhile isWordCh = nm := by
    rw [takeWhile_append_all isWordCh nm _ hnm,
      takeWhile_cons_neg isWordCh ':' _ (by decide), List.append_nil]
  have hdw : (nm ++ ':' :: (idr ++ '>' :: rest)).dropWhile isWordCh =
      ':' :: (idr ++ '>' :: rest) := by
    rw [dropWhile_append_all isWordCh nm _ hnm]
    exact List.dropWhile_cons_of_neg (by decide)
  have hidw : idr.all isDigitCh = true := hid
  have htw2 : (idr ++ '>' :: rest).takeWhile isDigitCh = idr := by
    rw [takeWhile_append_all isDigitCh idr _ hidw,
      takeWhile_cons_neg isDigitCh '>' _ (by decide), List.append_nil]
  have hdw2 : (idr ++ '>' :: rest).dropWhile isDigitCh = '>' :: rest := by
    rw [dropWhile_append_all isDigitCh idr _ hidw]
    exact List.dropWhile_cons_of_neg (by decide)
  have hnee : nm.isEmpty = false := by
    cases nm with
    | nil => exact absurd rfl hne
    | cons a l => rfl
  cases a with
  | false =>
    simp only [if_neg (by simp : ¬ (false : Bool) = true), List.nil_append]
    simp [matchCanonAt, htw, hdw, htw2, hdw2, hlen, hnee]
  | true =>
    simp only [if_pos rfl]
    simp [matchCanonAt, htw, hdw, htw2, hdw2, hlen, hnee]

theorem containsCanonF_at (nc : Char → Bool) (lenOk : Nat → Bool) (x y : List Char)
    (hm : (matchCanonAt nc lenOk y).isSome = true) :
    ∀ fuel, x.length + 1 ≤ fuel → containsCanonF nc lenOk fuel (x ++ y) = true := by
  induction x with
  | nil =>
    intro fuel hf
    cases fuel with
    | zero => omega
    | succ n =>
      cases y with
      | nil => simp [matchCanonAt] at hm
      | cons c cs =>
        rw [List.nil_append]
        simp only [containsCanonF, hm, Bool.true_or]
  | cons a as ih =>
    intro fuel hf
    cases fuel with
    | zero => omega
    | succ n =>
      rw [List.cons_append]
      simp only [containsCanonF]
      rw [ih n (by simp at hf; omega)]
      simp

theorem renderCanon_length_pos (a : Bool) (nm idr : List Char) :
    1 ≤ (renderCanon a nm idr).length := by
  cases a <;> simp [renderCanon]

theorem containsCanon_of_mem (segs : List Seg) (a : Bool) (nm idr : List Char)
    (hmem : Seg.canon a nm idr ∈ segs)
    (hne : ¬ nm = []) (hnm : nm.all isWordCh = true)
    (hid : idr.all isDigitCh = true) (hlen : len1720 idr.length = true) :
    containsCanonF isWordCh len1720 (renderSegs segs).length (renderSegs segs) = true := by
  obtain ⟨l₁, l₂, hsegs⟩ := List.append_of_mem hmem
  have hr : renderSegs segs =
      renderSegs l₁ ++ (renderCanon a nm idr ++ renderSegs l₂) := by
    rw [hsegs]
    simp [renderSegs, renderSeg]
  rw [hr]
  apply containsCanonF_at
  · rw [matchCanonAt_render a nm idr _ hne hnm hid hlen]
    rfl
  · have h1 := renderCanon_length_pos a nm idr
    simp [List.length_append]
    omega

/-- C9: processEmojiText is idempotent on texts whose only symbol-like spans
are already-canonical tagged references (modeled as wellformed segment lists:
colon-free literals and canonical `<a?:name:id>` references with nonempty
`[\w-]` names and 17-20 digit ids), in the revision-3 implementation: one
application leaves the text byte-for-byte unchanged, so a second application
(under any state and flag) returns the same text.  The revision-2
implementation violates this (see the counterexample below). -/
theorem c9_rewrite_idempotent (st st2 : EmojiState) (b b2 : Bool) (segs : List Seg)
    (hwf : ∀ sg ∈ segs, segOK sg = true) :
    (es3ProcessEmojiText st b (renderSegs segs)).1 = renderSegs segs
  ∧ (es3ProcessEmojiText st2 b2 ((es3ProcessEmojiText st b (renderSegs segs)).1)).1 =
      (es3ProcessEmojiText st b (renderSegs segs)).1 := by
  have main : ∀ (st : EmojiState) (b : Bool),
      (es3ProcessEmojiText st b (renderSegs segs)).1 = renderSegs segs := by
    intro st b
    by_cases he : (renderSegs segs).isEmpty = true
    · have hnil : renderSegs segs = [] := by
        cases h : renderSegs segs with
        | nil => rfl
        | cons c cs => rw [h] at he; simp [List.isEmpty] at he
      rw [hnil]
      rfl
    · by_cases hc : containsCanonF isWordCh len1720
          (renderSegs segs).length (renderSegs segs) = true
      · unfold es3ProcessEmojiText
        rw [if_neg he, if_pos hc]
      · have hall : ∀ sg ∈ segs, ∀ u v, renderSeg sg = u ++ ':' :: v →
            ∃ d ds, v.dropWhile isWordCh = d :: ds ∧ ¬ d = ':' := by
          intro sg hsg
          cases sg with
          | lit s =>
            exact segNoTok_lit s (by simpa [segOK] using hwf _ hsg)
          | canon a nm idr =>
            have hok := hwf _ hsg
            simp only [segOK, Bool.and_eq_true] at hok
            obtain ⟨⟨⟨hne', hnm⟩, hid⟩, hlen⟩ := hok
            have hne : ¬ nm = [] := by
              intro h0
              rw [h0] at hne'
              simp at hne'
            cases hnw : nm.all isWordCh with
            | false => exact segNoTok_canon a nm idr hnm hnw hid
            | true =>
              exact absurd (containsCanon_of_mem segs a nm idr hsg hne hnw hid hlen) hc
        have hfree := tokFreeB_renderSegs isWordCh segs hall
        have hid := tokScanF_id isWordCh (es3ColonCb b)
          (renderSegs segs).length st (renderSegs segs) le_rfl hfree
        unfold es3ProcessEmojiText
        rw [if_neg he, if_neg hc]
        simp only [hid]
        cases b with
        | false => rfl
        | true => cases es3FirstCanonName (renderSegs segs).length (renderSegs segs) <;> rfl
  exact ⟨main st b, by rw [main st b]; exact main st2 b2⟩

def emptyES : EmojiState :=
  { emojiRankings := [], emojiCache := [], currentGuildId := none
  , currentGuildEmojis := none, lastUsedEmoji := none }

def w9segs : List Seg :=
  [Seg.lit "hello ".toList,
   Seg.canon false "party-blob".toList "12345678901234567".toList,
   Seg.lit " world ".toList,
   Seg.canon true "wave".toList "98765432109876543210".toList]

theorem c9_rewrite_idempotent_witness :
    (∀ sg ∈ w9segs, segOK sg = true)
  ∧ ((es3ProcessEmojiText emptyES false (renderSegs w9segs)).1 = renderSegs w9segs
  ∧ (es3ProcessEmojiText emptyES true
        ((es3ProcessEmojiText emptyES false (renderSegs w9segs)).1)).1 =
      (es3ProcessEmojiText emptyES false (renderSegs w9segs)).1) :=
  ⟨by decide, c9_rewrite_idempotent emptyES emptyES false true w9segs (by decide)⟩

/-- One canonical reference of the counterexample text. -/
def c9seg (nm : String) : Seg := Seg.canon false nm.toList "11111111111111111".toList

/-- Eleven canonical references around the literal "00Z": the revision-2
placeholder names `__EMOJI_0_1` and `__EMOJI_0_10` collide during restoration,
shearing characters off the literal on each pass. -/
def c9cexSegs : List Seg :=
  [c9seg "aa", c9seg "ab", Seg.lit "00Z".toList, c9seg "ac", c9seg "ad",
   c9seg "ae", c9seg "af", c9seg "ag", c9seg "ah", c9seg "ai", c9seg "aj",
   c9seg "ak"]

set_option maxRecDepth 100000 in
theorem c9_rewrite_idempotent_cex :
    (∀ sg ∈ c9cexSegs, segOK sg = true)
  ∧ ¬ ((processEmojiText emptyES 0 true
          (processEmojiText emptyES 0 true (renderSegs c9cexSegs)).1).1 =
        (processEmojiText emptyES 0 true (renderSegs c9cexSegs)).1) := by
  refine ⟨by decide, by decide⟩

theorem tokScanF_colon_empty {σ : Type} (wc : Char → Bool)
    (f : σ → List Char → List Char × σ) (fuel : Nat) (st : σ) (cs : List Char)
    (htw : cs.takeWhile wc = []) :
    tokScanF wc f (fuel + 1) st (':' :: cs) =
      (':' :: (tokScanF wc f fuel st cs).1, (tokScanF wc f fuel st cs).2) := by
  simp only [tokScanF, if_pos rfl, htw]
  rw [if_true]

theorem tokScanF_colon_match {σ : Type} (wc : Char → Bool)
    (f : σ → List Char → List Char × σ) (fuel : Nat) (st : σ) (cs : List Char)
    (c : Char) (ts rest2 : List Char)
    (htw : cs.takeWhile wc = c :: ts) (hdw : cs.dropWhile wc = ':' :: rest2) :
    tokScanF wc f (fuel + 1) st (':' :: cs) =
      ((f st (c :: ts)).1 ++ (tokScanF wc f fuel (f st (c :: ts)).2 rest2).1,
       (tokScanF wc f fuel (f st (c :: ts)).2 rest2).2) := by
  simp only [tokScanF, if_pos rfl, htw, hdw]
  rw [if_true]

/-- Any property of the threaded state preserved by the callback is preserved
by the whole `:NAME:` scan. -/
theorem tokScanF_inv {σ : Type} (wc : Char → Bool)
    (f : σ → List Char → List Char × σ) (P : σ → Prop)
    (hf : ∀ st nm, P st → P ((f st nm).2)) :
    ∀ (fuel : Nat) (st : σ) (s : List Char), P st →
      P ((tokScanF wc f fuel st s).2) := by
  intro fuel
  induction fuel with
  | zero => intro st s h; exact h
  | succ n ih =>
    intro st s h
    cases s with
    | nil => rw [tokScanF_nil]; exact h
    | cons c cs =>
      by_cases hc : c = ':'
      · subst hc
        cases htw : cs.takeWhile wc with
        | nil =>
          rw [tokScanF_colon_empty wc f n st cs htw]
          exact ih st cs h
        | cons a ts =>
          cases hdw : cs.dropWhile wc with
          | nil =>
            rw [tokScanF_colon_fail wc f n st cs (by rw [hdw]; intro r hr; exact List.noConfusion hr)]
            exact ih st cs h
          | cons d ds =>
            by_cases hd : d = ':'
            · subst hd
              rw [tokScanF_colon_match wc f n st cs a ts ds htw hdw]
              exact ih _ ds (hf st (a :: ts) h)
            · rw [tokScanF_colon_fail wc f n st cs
                (by rw [hdw]; intro r hr; exact hd (List.cons_eq_cons.mp hr).1)]
              exact ih st cs h
      · rw [tokScanF_cons_emit wc f n st c cs hc]
        exact ih st cs h

/-- Every cache entry is keyed by the lowercased name of the record it holds. -/
def cacheWF (st : EmojiState) : Prop :=
  ∀ k e, alGet st.emojiCache k = some e → lowerS e.name = k

/-- No current guild emoji lowercases to the observed name. -/
def guildAvoids (st : EmojiState) (tgt : String) : Prop :=
  ∀ gs, st.currentGuildEmojis = some gs →
    ∀ e ∈ gs, ¬ lowerS (e.name.getD "") = tgt

theorem alGet_alSet_cases {α : Type} (m : List (String × α)) (k k' : String)
    (v e : α) (h : alGet (alSet m k v) k' = some e) :
    (k' = k ∧ e = v) ∨ (¬ k' = k ∧ alGet m k' = some e) := by
  by_cases hk : k' = k
  · subst hk
    rw [alGet_alSet_self] at h
    exact Or.inl ⟨rfl, (Option.some_inj.mp h).symm⟩
  · rw [alGet_alSet_ne m k k' v (fun hh => hk hh.symm)] at h
    exact Or.inr ⟨hk, h⟩

theorem mergeFold_wf (gid : String) (emojis : List GuildEmoji) :
    ∀ (m : List (String × CachedEmoji)),
      (∀ k e, alGet m k = some e → lowerS e.name = k) →
      ∀ k e, alGet (emojis.foldl (mergeCacheStep gid) m) k = some e →
        lowerS e.name = k := by
  induction emojis with
  | nil => intro m hm; exact hm
  | cons g rest ih =>
    intro m hm
    rw [List.foldl_cons]
    apply ih
    intro k e h
    unfold mergeCacheStep at h
    by_cases ht : jsTruthy g.name = true
    · rw [if_pos ht] at h
      by_cases hp : (alGet m (lowerS (g.name.getD ""))).isSome = true
      · rw [if_pos hp] at h
        exact hm k e h
      · rw [if_neg hp] at h
        rcases alGet_alSet_cases _ _ _ _ _ h with ⟨hk, he⟩ | ⟨_, he⟩
        · rw [hk, he]
        · exact hm k e he
    · rw [if_neg ht] at h
      exact hm k e h

theorem mergeFold_miss (gid : String) (tgt : String) (emojis : List GuildEmoji)
    (havoid : ∀ e ∈ emojis, ¬ lowerS (e.name.getD "") = tgt) :
    ∀ (m : List (String × CachedEmoji)), alGet m tgt = none →
      alGet (emojis.foldl (mergeCacheStep gid) m) tgt = none := by
  induction emojis with
  | nil => intro m hm; exact hm
  | cons g rest ih =>
    intro m hm
    rw [List.foldl_cons]
    apply ih (fun e he => havoid e (List.mem_cons_of_mem _ he))
    unfold mergeCacheStep
    by_cases ht : jsTruthy g.name = true
    · rw [if_pos ht]
      by_cases hp : (alGet m (lowerS (g.name.getD ""))).isSome = true
      · rw [if_pos hp]
        exact hm
      · rw [if_neg hp]
        rw [alGet_alSet_ne _ _ _ _ (havoid g (List.mem_cons_self _ _))]
        exact hm
    · rw [if_neg ht]
      exact hm

theorem updateAvailableEmojisMerge_fields (st : EmojiState) :
    (updateAvailableEmojisMerge st).currentGuildId = st.currentGuildId
  ∧ (updateAvailableEmojisMerge st).currentGuildEmojis = st.currentGuildEmojis := by
  unfold updateAvailableEmojisMerge
  cases hg : st.currentGuildId <;> cases hge : st.currentGuildEmojis <;>
    simp [hg, hge]

theorem updateAvailableEmojisMerge_inv (st : EmojiState) (tgt : String)
    (hwf : cacheWF st) (hga : guildAvoids st tgt)
    (hmiss : alGet st.emojiCache tgt = none) :
    cacheWF (updateAvailableEmojisMerge st)
  ∧ guildAvoids (updateAvailableEmojisMerge st) tgt
  ∧ alGet (updateAvailableEmojisMerge st).emojiCache tgt = none := by
  refine ⟨?_, ?_, ?_⟩
  · intro k e h
    unfold updateAvailableEmojisMerge at h
    cases hg : st.currentGuildId with
    | none => rw [hg] at h; exact hwf k e h
    | some gid =>
      cases hge : st.currentGuildEmojis with
      | none => rw [hg, hge] at h; exact hwf k e h
      | some gs =>
        rw [hg, hge] at h
        exact mergeFold_wf gid gs st.emojiCache hwf k e h
  · intro gs hgs
    rw [(updateAvailableEmojisMerge_fields st).2] at hgs
    exact hga gs hgs
  · unfold updateAvailableEmojisMerge
    cases hg : st.currentGuildId with
    | none => exact hmiss
    | some gid =>
      cases hge : st.currentGuildEmojis with
      | none => exact hmiss
      | some gs =>
        exact mergeFold_miss gid tgt gs (hga gs hge) st.emojiCache hmiss

theorem trackEmojiUsage_inv (st : EmojiState) (name tgt : String) (b : Bool)
    (hn : ¬ name = tgt)
    (hwf : cacheWF st) (hga : guildAvoids st tgt)
    (hmiss : alGet st.emojiCache tgt = none) :
    cacheWF (trackEmojiUsage st name b)
  ∧ guildAvoids (trackEmojiUsage st name b) tgt
  ∧ alGet (trackEmojiUsage st name b).emojiCache tgt = none
  ∧ alGet (trackEmojiUsage st name b).emojiRankings tgt =
      alGet st.emojiRankings tgt := by
  unfold trackEmojiUsage
  cases b with
  | true => exact ⟨hwf, hga, hmiss, rfl⟩
  | false =>
    simp only [Bool.false_eq_true, if_false]
    set st1 : EmojiState :=
      { st with emojiRankings :=
          (alSet st.emojiRankings name ((alGet st.emojiRankings name).getD 0 + 1)) }
      with hst1
    have h1wf : cacheWF st1 := hwf
    have h1ga : guildAvoids st1 tgt := hga
    have h1miss : alGet st1.emojiCache tgt = none := hmiss
    have h1rank : alGet st1.emojiRankings tgt = alGet st.emojiRankings tgt := by
      rw [hst1]
      exact alGet_alSet_ne _ _ _ _ hn
    split
    · split
      · have h2 := updateAvailableEmojisMerge_inv st1 tgt h1wf h1ga h1miss
        exact ⟨h2.1, h2.2.1, h2.2.2,
          by rw [updateAvailableEmojisMerge_rankings]; exact h1rank⟩
      · exact ⟨h1wf, h1ga, h1miss, h1rank⟩
    · exact ⟨h1wf, h1ga, h1miss, h1rank⟩

theorem string_data_append (s t : String) : (s ++ t).toList = s.toList ++ t.toList := rfl

theorem uniquePfx_not_prefix_colon (now : Nat) (l : List Char) :
    (uniquePfx now).isPrefixOf (':' :: l) = false := by
  unfold uniquePfx
  rw [string_data_append, string_data_append]
  rfl

theorem validCoreTail_all (l : List Char) (h : validCoreTail l = true) :
    l.all isWordHy = true := by
  induction l with
  | nil => rfl
  | cons c rest ih =>
    cases rest with
    | nil =>
      rw [validCoreTail] at h
      rw [List.all_cons, List.all_nil, Bool.and_true]
      rw [isWordHy, isWordCh]
      rw [h]
      rfl
    | cons c2 r2 =>
      rw [show validCoreTail (c :: c2 :: r2) = (isWordHy c && validCoreTail (c2 :: r2))
        from rfl, Bool.and_eq_true] at h
      rw [List.all_cons, h.1, Bool.true_and]
      exact ih h.2

theorem validCore_all (l : List Char) (h : validCore l = true) :
    l.all isWordHy = true := by
  cases l with
  | nil => rfl
  | cons c rest =>
    cases rest with
    | nil => exact absurd h (by rw [validCore]; simp)
    | cons c2 r2 =>
      rw [show validCore (c :: c2 :: r2) = (isAlnumCh c && validCoreTail (c2 :: r2))
        from rfl, Bool.and_eq_true] at h
      rw [List.all_cons]
      rw [show isWordHy c = true by rw [isWordHy, isWordCh, h.1]; rfl]
      rw [Bool.true_and]
      exact validCoreTail_all _ h.2

theorem isValidEmojiName_all_wordHy (nm : List Char)
    (h : isValidEmojiName nm = true) : nm.all isWordHy = true := by
  rw [isValidEmojiName] at h
  simp only [Bool.and_eq_true] at h
  exact validCore_all nm h.1.1.1.2

theorem isValidEmojiName_ne_nil (nm : List Char)
    (h : isValidEmojiName nm = true) : ¬ nm = [] := by
  intro h0
  rw [h0] at h
  exact absurd h (by decide)

theorem unformattedCb_unknown (now : Nat) (b : Bool) (ctx : PhSt) (nm : List Char)
    (hval : isValidEmojiName nm = true)
    (hmiss1 : alGet ctx.1.emojiCache (String.mk (lowerL nm)) = none)
    (hmiss2 : alGet ctx.1.emojiCache (String.mk nm) = none) :
    unformattedCb now b ctx nm = ([':'] ++ nm ++ [':'], ctx) := by
  unfold unformattedCb
  have hpf : (uniquePfx now).isPrefixOf ([':'] ++ nm ++ [':']) = false := by
    rw [show ([':'] ++ nm ++ [':'] : List Char) = ':' :: (nm ++ [':']) by simp]
    exact uniquePfx_not_prefix_colon now (nm ++ [':'])
  rw [hpf, hval]
  simp only [Bool.not_true, Bool.false_eq_true, if_false, hmiss1, hmiss2]

theorem unformattedCb_inv (now : Nat) (b : Bool) (tgt : String) (v0 : Option Nat)
    (ctx : PhSt) (nm : List Char)
    (h : cacheWF ctx.1 ∧ guildAvoids ctx.1 tgt ∧
         alGet ctx.1.emojiCache tgt = none ∧ alGet ctx.1.emojiRankings tgt = v0) :
    cacheWF (unformattedCb now b ctx nm).2.1
  ∧ guildAvoids (unformattedCb now b ctx nm).2.1 tgt
  ∧ alGet (unformattedCb now b ctx nm).2.1.emojiCache tgt = none
  ∧ alGet (unformattedCb now b ctx nm).2.1.emojiRankings tgt = v0 := by
  obtain ⟨hwf, hga, hmiss, hrank⟩ := h
  unfold unformattedCb
  by_cases hpf : (uniquePfx now).isPrefixOf ([':'] ++ nm ++ [':']) = true
  · rw [if_pos hpf]
    exact ⟨hwf, hga, hmiss, hrank⟩
  · rw [if_neg hpf]
    by_cases hv : isValidEmojiName nm = true
    · rw [hv]
      simp only [Bool.not_true, Bool.false_eq_true, if_false]
      cases h1 : alGet ctx.1.emojiCache (String.mk (lowerL nm)) with
      | some e =>
        simp only [h1]
        have hk : ¬ lowerS e.name = tgt := by
          rw [hwf (String.mk (lowerL nm)) e h1]
          intro h0
          rw [h0] at h1
          rw [hmiss] at h1
          exact Option.noConfusion h1
        have ht := trackEmojiUsage_inv ctx.1 (lowerS e.name) tgt b hk hwf hga hmiss
        exact ⟨ht.1, ht.2.1, ht.2.2.1, by rw [ht.2.2.2]; exact hrank⟩
      | none =>
        simp only [h1]
        cases h2 : alGet ctx.1.emojiCache (String.mk nm) with
        | some e =>
          simp only [h2]
          have hk : ¬ lowerS e.name = tgt := by
            rw [hwf (String.mk nm) e h2]
            intro h0
            rw [h0] at h2
            rw [hmiss] at h2
            exact Option.noConfusion h2
          have ht := trackEmojiUsage_inv ctx.1 (lowerS e.name) tgt b hk hwf hga hmiss
          exact ⟨ht.1, ht.2.1, ht.2.2.1, by rw [ht.2.2.2]; exact hrank⟩
        | none =>
          simp only [h2]
          exact ⟨hwf, hga, hmiss, hrank⟩
    · have hv' : isValidEmojiName nm = false := by
        cases hvv : isValidEmojiName nm
        · rfl
        · exact absurd hvv hv
      rw [hv']
      simp only [Bool.not_false, if_true]
      exact ⟨hwf, hga, hmiss, hrank⟩

/-- C7: in the emojiService revision (processUnformattedEmojis, lines
815-874), a bare `:name:` token whose name passes the validity grammar but has
no record in the emoji cache (under either the lowercased or the exact key) is
reconstructed byte-for-byte with the whole context untouched; the lone token
scans to itself; and over any input text, under a wellformed cache whose
entries and current guild avoid the observed name, the scan never creates or
modifies that name's ranking entry.  The messageQueueService revision violates
the ranking part (see the counterexample below). -/
theorem c7_unknown_token_untouched (now : Nat) (b : Bool) (ctx : PhSt)
    (nm : List Char) (tgt : String) (text : List Char)
    (hval : isValidEmojiName nm = true)
    (hmiss1 : alGet ctx.1.emojiCache (String.mk (lowerL nm)) = none)
    (hmiss2 : alGet ctx.1.emojiCache (String.mk nm) = none)
    (hwf : cacheWF ctx.1) (hga : guildAvoids ctx.1 tgt)
    (hmiss : alGet ctx.1.emojiCache tgt = none) :
    unformattedCb now b ctx nm = ([':'] ++ nm ++ [':'], ctx)
  ∧ processUnformattedEmojis now b ctx ([':'] ++ nm ++ [':']) =
      ([':'] ++ nm ++ [':'], ctx)
  ∧ alGet (processUnformattedEmojis now b ctx text).2.1.emojiRankings tgt =
      alGet ctx.1.emojiRankings tgt := by
  have hcb := unformattedCb_unknown now b ctx nm hval hmiss1 hmiss2
  refine ⟨hcb, ?_, ?_⟩
  · -- Scenario E: the lone token passes through with the state untouched
    obtain ⟨c, ts, hnm⟩ : ∃ c ts, nm = c :: ts := by
      cases nm with
      | nil => exact absurd rfl (isValidEmojiName_ne_nil [] hval)
      | cons c ts => exact ⟨c, ts, rfl⟩
    have hall : nm.all isWordHy = true := isValidEmojiName_all_wordHy nm hval
    have htw : (nm ++ [':']).takeWhile isWordHy = nm := by
      rw [takeWhile_append_all isWordHy nm _ hall,
        takeWhile_cons_neg isWordHy ':' [] (by decide), List.append_nil]
    have hdw : (nm ++ [':']).dropWhile isWordHy = ':' :: [] := by
      rw [dropWhile_append_all isWordHy nm _ hall]
      exact List.dropWhile_cons_of_neg (by decide)
    have htok : ([':'] ++ nm ++ [':'] : List Char) = ':' :: (nm ++ [':']) := by simp
    have hlen : ([':'] ++ nm ++ [':'] : List Char).length = (nm ++ [':']).length + 1 := by
      simp
    unfold processUnformattedEmojis
    rw [hlen, htok]
    rw [tokScanF_colon_match isWordHy (unformattedCb now b) (nm ++ [':']).length ctx
      (nm ++ [':']) c ts [] (htw.trans hnm) hdw]
    rw [← hnm, hcb, tokScanF_nil]
    simp
  · have hinv := tokScanF_inv isWordHy (unformattedCb now b)
      (fun σ => cacheWF σ.1 ∧ guildAvoids σ.1 tgt ∧
        alGet σ.1.emojiCache tgt = none ∧
        alGet σ.1.emojiRankings tgt = alGet ctx.1.emojiRankings tgt)
      (fun st nm h => unformattedCb_inv now b tgt (alGet ctx.1.emojiRankings tgt) st nm h)
      text.length ctx text ⟨hwf, hga, hmiss, rfl⟩
    exact hinv.2.2.2

theorem c7_unknown_token_untouched_witness :
    isValidEmojiName "unknownthing".toList = true
  ∧ (unformattedCb 0 false (emptyES, 0, []) "unknownthing".toList =
        ([':'] ++ "unknownthing".toList ++ [':'], (emptyES, 0, []))
  ∧ processUnformattedEmojis 0 false (emptyES, 0, [])
        ([':'] ++ "unknownthing".toList ++ [':']) =
      ([':'] ++ "unknownthing".toList ++ [':'], (emptyES, 0, []))
  ∧ alGet (processUnformattedEmojis 0 false (emptyES, 0, [])
        ":unknownthing: hi".toList).2.1.emojiRankings "unknownthing" =
      alGet (emptyES, 0, ([] : List (List Char × List Char))).1.emojiRankings
        "unknownthing") :=
  ⟨by decide,
   c7_unknown_token_untouched 0 false (emptyES, 0, []) "unknownthing".toList
     "unknownthing" ":unknownthing: hi".toList (by decide) rfl rfl
     (fun _ _ h => Option.noConfusion h) (fun _ h => Option.noConfusion h) rfl⟩

set_option maxRecDepth 100000 in
theorem c7_unknown_token_untouched_cex :
    isValidEmojiName "unknownthing".toList = true
  ∧ alGet emptyES.emojiCache "unknownthing" = none
  ∧ alGet emptyES.emojiRankings "unknownthing" = none
  ∧ (mqsProcessEmojiText emptyES ":unknownthing:".toList).1 = ":unknownthing:".toList
  ∧ alGet (mqsProcessEmojiText emptyES ":unknownthing:".toList).2.emojiRankings
      "unknownthing" = some 1 := by
  refine ⟨by decide, rfl, rfl, by decide, by decide⟩
